import Mathlib

/-!
# Shades of Grey colour constancy (`shadesofgrey.c`): embedding and properties

The numeric core of the plug-in is embedded as Lean functions.

* A `gfloat`/`gdouble` is an `FVal α`: a finite value of an exact ordered field `α`,
  `+inf`, `-inf` or `NaN`.  Rounding is not modelled (every finite operation is exact, and
  narrowing `gdouble` to `gfloat` is the identity); the exceptional values are, with the
  IEEE rules for them.  Zero is unsigned and behaves as `+0`, the only zero the pipeline
  produces from its non-negative decoded samples.  In particular a product never underflows
  here, while a `gfloat` product below about `1.4e-45` is 0 in C: the statements whose
  conclusion needs a power of a sample to be non-zero bound that power from below by
  `2^-126`, the smallest normal `gfloat`.
* The C library functions `powf`, `pow`, `sqrt`, `cbrt` are taken from a `Libm α`
  record on finite arguments; `realLibm` is the exact instance over `ℝ`.
* A `guint8` is a `Fin 256`.  Array reads and writes are checked: an access outside the
  array is undefined behaviour in C and makes the embedded function return `none`.
* Loop counters and `count_pix` are natural numbers (a buffer of `channels * npixels`
  bytes has been allocated, so they stay below `2^31`).
-/

namespace ShadesOfGrey

/-! ## Floating-point values -/

/-- A floating-point value: finite, plus infinity, minus infinity, or not-a-number. -/
inductive FVal (α : Type) where
  | fin (x : α)
  | pinf
  | ninf
  | nan
  deriving DecidableEq

/-- A `guint8`. -/
abbrev Byte := Fin 256

namespace FVal

variable {α : Type} [LinearOrderedField α]

/-- The C comparison `a < b`; false as soon as one side is NaN. -/
def lt : FVal α → FVal α → Bool
  | fin x, fin y => decide (x < y)
  | fin _, pinf => true
  | ninf, fin _ => true
  | ninf, pinf => true
  | _, _ => false

/-- The C comparison `a > b`. -/
def gt (a b : FVal α) : Bool := lt b a

/-- The C comparison `a <= b`; false as soon as one side is NaN. -/
def le : FVal α → FVal α → Bool
  | fin x, fin y => decide (x ≤ y)
  | fin _, pinf => true
  | ninf, fin _ => true
  | ninf, pinf => true
  | pinf, pinf => true
  | ninf, ninf => true
  | _, _ => false

/-- Unary minus. -/
def neg : FVal α → FVal α
  | fin x => fin (-x)
  | pinf => ninf
  | ninf => pinf
  | nan => nan

/-- Addition: `inf + (-inf)` is NaN. -/
def add : FVal α → FVal α → FVal α
  | fin x, fin y => fin (x + y)
  | nan, _ => nan
  | _, nan => nan
  | pinf, ninf => nan
  | ninf, pinf => nan
  | pinf, _ => pinf
  | _, pinf => pinf
  | ninf, _ => ninf
  | _, ninf => ninf

/-- Subtraction. -/
def sub (a b : FVal α) : FVal α := add a (neg b)

/-- An infinity of the sign of `x`, NaN when `x = 0` (the rule for `x * inf`). -/
def infTimes (x : α) (positive : Bool) : FVal α :=
  if x = 0 then nan else if (0 < x) = positive then pinf else ninf

/-- Multiplication: `0 * inf` is NaN. -/
def mul : FVal α → FVal α → FVal α
  | fin x, fin y => fin (x * y)
  | nan, _ => nan
  | _, nan => nan
  | fin x, pinf => infTimes x true
  | pinf, fin x => infTimes x true
  | fin x, ninf => infTimes x false
  | ninf, fin x => infTimes x false
  | pinf, pinf => pinf
  | ninf, ninf => pinf
  | pinf, ninf => ninf
  | ninf, pinf => ninf

/-- Division: `0/0` and `inf/inf` are NaN, `x/0` is an infinity of the sign of `x`,
`x/inf` is zero. -/
def div : FVal α → FVal α → FVal α
  | fin x, fin y =>
      if y = 0 then (if x = 0 then nan else if 0 < x then pinf else ninf) else fin (x / y)
  | nan, _ => nan
  | _, nan => nan
  | fin _, pinf => fin 0
  | fin _, ninf => fin 0
  | pinf, fin y => if 0 ≤ y then pinf else ninf
  | ninf, fin y => if 0 ≤ y then ninf else pinf
  | pinf, pinf => nan
  | pinf, ninf => nan
  | ninf, pinf => nan
  | ninf, ninf => nan

instance : Add (FVal α) := ⟨add⟩
instance : Sub (FVal α) := ⟨sub⟩
instance : Mul (FVal α) := ⟨mul⟩
instance : Div (FVal α) := ⟨div⟩

end FVal

open FVal

/-- The C library on finite arguments: `pow x y` (also `powf`) for `0 ≤ x`, `sqrt x` for
`0 ≤ x`, `cbrt x`. -/
structure Libm (α : Type) where
  /-- The power `x ^ y`: `pow` and `powf`. -/
  pow : α → α → α
  /-- The square root. -/
  sqrt : α → α
  /-- The cube root. -/
  cbrt : α → α

/-- The exact C library over the reals. -/
noncomputable def realLibm : Libm ℝ where
  pow := fun x y => x ^ y
  sqrt := Real.sqrt
  cbrt := fun x => if 0 ≤ x then x ^ (1 / 3 : ℝ) else -((-x) ^ (1 / 3 : ℝ))

section Core

variable {α : Type} [LinearOrderedField α]

/-- The function `sqrt` on floating-point values: NaN for a negative argument. -/
def fsqrt (L : Libm α) : FVal α → FVal α
  | fin x => if x < 0 then nan else fin (L.sqrt x)
  | pinf => pinf
  | ninf => nan
  | nan => nan

/-- The function `cbrt` on floating-point values. -/
def fcbrt (L : Libm α) : FVal α → FVal α
  | fin x => fin (L.cbrt x)
  | pinf => pinf
  | ninf => ninf
  | nan => nan

/-- The functions `pow(x, y)` and `powf(x, y)` for the exponents the program passes: finite, positive
and not an integer (`2.4`, `1/2.4`, `0.25`, `1/norm` with `norm > 4`).  A negative finite
base gives NaN, both infinities give `+inf`. -/
def fpow (L : Libm α) (x : FVal α) (y : α) : FVal α :=
  match x with
  | fin x => if x < 0 then nan else fin (L.pow x y)
  | pinf => pinf
  | ninf => pinf
  | nan => nan

/-- The glib macro `MAX(a, b)`, `((a) > (b)) ? (a) : (b)`. -/
def gMAX (a b : FVal α) : FVal α := if FVal.gt a b then a else b

/-- The glib macro `MIN(a, b)`, `((a) < (b)) ? (a) : (b)`. -/
def gMIN (a b : FVal α) : FVal α := if FVal.lt a b then a else b

/-- The C function `roundf`: to the nearest integer, halfway cases away from zero. -/
def roundf [FloorRing α] : FVal α → FVal α
  | fin x => fin (if 0 ≤ x then ((⌊x + 1 / 2⌋ : Int) : α) else -((⌊-x + 1 / 2⌋ : Int) : α))
  | v => v

/-- The conversion `(guint8) v`: the value truncated toward zero when that fits a byte;
undefined otherwise (NaN, an infinity, or a truncated value outside `[0,255]`). -/
def toGuint8 [FloorRing α] : FVal α → Option Byte
  | fin x =>
      if h : -1 < x ∧ x < 256 then
        some ⟨(⌊x⌋ : Int).toNat % 256, Nat.mod_lt _ (by decide)⟩
      else none
  | _ => none

/-! ## Gamma codec -/

/-- One entry of the lookup table built by `sRGB2linearLU`. -/
def lookup (L : Libm α) (i : Nat) : FVal α :=
  let t : FVal α := fin ((i : α) / 255)
  if FVal.le t (fin 0.03928) then t / fin 12.92
  else fpow L ((t + fin 0.055) / fin 1.055) 2.4

/-- The function `sRGB2linearLU`: the first `len` bytes of `srgb` decoded by table lookup. -/
def sRGB2linearLU (L : Libm α) (srgb : List Byte) (len : Nat) : Option (List (FVal α)) :=
  if len ≤ srgb.length then some ((srgb.take len).map (fun b => lookup L b.val)) else none

/-- The body of the loop of `linear2sRGB`, for one sample. -/
def linear2sRGB1 (L : Libm α) (x : FVal α) : FVal α :=
  let v := if FVal.le x (fin 0.00304) then x * fin 12.92
           else fpow L (x * fin 1.055) (1 / 2.4) - fin 0.055
  let v := if FVal.gt v (fin 0) then v else fin 0
  if FVal.lt v (fin 1) then v else fin 1

/-- The function `linear2sRGB`: the first `len` samples re-encoded in place. -/
def linear2sRGB (L : Libm α) (linrgb : List (FVal α)) (len : Nat) : Option (List (FVal α)) :=
  if len ≤ linrgb.length then
    some ((linrgb.take len).map (linear2sRGB1 L) ++ linrgb.drop len)
  else none

/-- The clipped sample `t = MIN(MAX(in[i], 0.0f), 1.0f)` of `float2im`. -/
def float2imClip (x : FVal α) : FVal α := gMIN (gMAX x (fin 0)) (fin 1)

/-- The value `roundf(t*255.0)` that `float2im` narrows to a byte. -/
def float2imRound [FloorRing α] (x : FVal α) : FVal α := roundf (float2imClip x * fin 255)

/-- The body of the loop of `float2im`, for one sample. -/
def float2im1 [FloorRing α] (x : FVal α) : Option Byte := toGuint8 (float2imRound x)

/-- The function `float2im`: the first `l` samples quantised to bytes. -/
def float2im [FloorRing α] (inp : List (FVal α)) (l : Nat) : Option (List Byte) :=
  if l ≤ inp.length then (inp.take l).mapM float2im1 else none

/-! ## Arrays and loops -/

/-- The three-element arrays `ill_est[3]` and `app_ill[3]`. -/
structure Vec3 (β : Type) where
  /-- Element 0. -/
  c0 : β
  /-- Element 1. -/
  c1 : β
  /-- Element 2. -/
  c2 : β

/-- A read `v[k]`; `none` when `k` is outside the array. -/
def Vec3.get? {β : Type} (v : Vec3 β) : Nat → Option β
  | 0 => some v.c0
  | 1 => some v.c1
  | 2 => some v.c2
  | _ => none

/-- A write `v[k] = x`; `none` when `k` is outside the array. -/
def Vec3.set? {β : Type} (v : Vec3 β) : Nat → β → Option (Vec3 β)
  | 0, x => some { v with c0 := x }
  | 1, x => some { v with c1 := x }
  | 2, x => some { v with c2 := x }
  | _, _ => none

/-- A write `buf[i] = x` into a buffer; `none` when `i` is outside it. -/
def wr {β : Type} (buf : List β) (i : Nat) (x : β) : Option (List β) :=
  if i < buf.length then some (buf.set i x) else none

/-- The loop `for (j = 0; j < n; j++) body`, threading the state `s`. -/
def forLoop {σ : Type} (body : Nat → σ → Option σ) : Nat → σ → Option σ
  | 0, s => some s
  | n + 1, s => (forLoop body n s).bind (body n)

/-- The number of iterations of `for (i = 0; i < channels*npixels; i += channels)`; the
`p`-th iteration has `i = p * channels`. -/
def pixelIters (channels npixels : Nat) : Nat := if channels = 0 then 0 else npixels

/-- The macro `CHECK_TH(&imtmp[i], th)`, with the short-circuit evaluation of `&&`. -/
def CHECK_TH (imtmp : List (FVal α)) (i : Nat) (th : FVal α) : Option Bool :=
  match imtmp[i]? with
  | none => none
  | some a =>
    if FVal.le a th then
      match imtmp[i + 1]? with
      | none => none
      | some b =>
        if FVal.le b th then
          match imtmp[i + 2]? with
          | none => none
          | some c => some (FVal.le c th)
        else some false
    else some false

/-- The condition of `CHECK_TH(&imtmp[i], th)` on finite samples: the three samples from
offset `i` are each at most `t`. -/
def Eligible (xs : List α) (i : Nat) (t : α) : Prop :=
  xs.getD i 0 ≤ t ∧ xs.getD (i + 1) 0 ≤ t ∧ xs.getD (i + 2) 0 ≤ t

instance (xs : List α) (i : Nat) (t : α) : Decidable (Eligible xs i t) := by
  unfold Eligible
  infer_instance

/-- The macro `POW2`. -/
def POW2 (x : FVal α) : FVal α := x * x

/-- The macro `POW3`. -/
def POW3 (x : FVal α) : FVal α := x * x * x

/-- The loop of `powN`, with `fuel` iterations allowed. -/
def powNLoop : Nat → FVal α → FVal α → Nat → FVal α
  | 0, _, y, _ => y
  | fuel + 1, x, y, p =>
    if 0 < p then powNLoop fuel (x * x) (if p % 2 = 1 then y * x else y) (p / 2) else y

/-- The function `powN`: `p` is a `guint32`, so 32 iterations exhaust it.  The products
are exact; in C they are `gfloat` products, which underflow to 0 for a small `x` and a
large `p` (a decoded byte 1 and `p = 13`, for one). -/
def powN (x : FVal α) (p : Nat) : FVal α := powNLoop 32 x (fin 1) (p % 2 ^ 32)

/-- The loop of `powN` run for at most `fuel` iterations: `none` when the loop has not
exited (`p` is still positive) by then. -/
def powNWithin : Nat → FVal α → FVal α → Nat → Option (FVal α)
  | 0, _, y, p => if 0 < p then none else some y
  | fuel + 1, x, y, p =>
    if 0 < p then powNWithin fuel (x * x) (if p % 2 = 1 then y * x else y) (p / 2) else some y

/-! ## Power-norm accumulator -/

/-- The plug-in parameters `Shades_param`. -/
structure Shades_param where
  /-- The threshold, a percentage. -/
  thresh : Int
  /-- The order of the norm. -/
  norm : Int
  /-- The preview toggle of the dialog. -/
  preview : Bool

/-- The state of the accumulation loops: `ill_est` and `count_pix`. -/
structure Acc (α : Type) where
  /-- The array `ill_est`. -/
  ill_est : Vec3 (FVal α)
  /-- The counter `count_pix`. -/
  count_pix : Nat

/-- The value `th_val = 1.0 - (gfloat)(par.thresh)/100.0`. -/
def th_val (thresh : Int) : FVal α := fin 1 - fin (thresh : α) / fin 100

/-- One pixel of the `par.norm == 0` loop (Max-RGB). -/
def maxRgbPixel (channels : Nat) (imtmp : List (FVal α)) (th : FVal α) (p : Nat)
    (s : Acc α) : Option (Acc α) :=
  let i := p * channels
  (CHECK_TH imtmp i th).bind fun c =>
    if c then
      (forLoop (fun k (e : Vec3 (FVal α)) =>
        (imtmp[i + k]?).bind fun x =>
          (e.get? k).bind fun cur =>
            if FVal.gt x cur then e.set? k x else some e) channels s.ill_est).map
        fun e => { s with ill_est := e }
    else some s

/-- One pixel of the loops for `par.norm` 1, 2, 3 and above 4: `count_pix++` and
`ill_est[j] += f(imtmp[i+j])` for `j = 0, 1, 2`. -/
def sumPixel (f : FVal α → FVal α) (channels : Nat) (imtmp : List (FVal α)) (th : FVal α)
    (p : Nat) (s : Acc α) : Option (Acc α) :=
  let i := p * channels
  (CHECK_TH imtmp i th).bind fun c =>
    if c then
      (imtmp[i]?).bind fun a =>
        (imtmp[i + 1]?).bind fun b =>
          (imtmp[i + 2]?).bind fun d =>
            some { ill_est := { c0 := s.ill_est.c0 + f a,
                                c1 := s.ill_est.c1 + f b,
                                c2 := s.ill_est.c2 + f d },
                   count_pix := s.count_pix + 1 }
    else some s

/-- One pixel of the `par.norm == 4` loop: `count_pix++`, then for every `k` below
`channels`, `t = POW2(imtmp[i+k]); ill_est[k] += POW2(t)`. -/
def norm4Pixel (channels : Nat) (imtmp : List (FVal α)) (th : FVal α) (p : Nat)
    (s : Acc α) : Option (Acc α) :=
  let i := p * channels
  (CHECK_TH imtmp i th).bind fun c =>
    if c then
      (forLoop (fun k (e : Vec3 (FVal α)) =>
        (imtmp[i + k]?).bind fun x =>
          (e.get? k).bind fun cur => e.set? k (cur + POW2 (POW2 x))) channels s.ill_est).map
        fun e => { ill_est := e, count_pix := s.count_pix + 1 }
    else some s

/-- A root applied to the three elements of `ill_est` after a loop. -/
def rootAll (r : FVal α → FVal α) (s : Acc α) : Acc α :=
  { s with ill_est := { c0 := r s.ill_est.c0, c1 := r s.ill_est.c1, c2 := r s.ill_est.c2 } }

/-- The accumulator: the branch on `par.norm` of `shades_of_grey`, from `ill_est = 0` and
`count_pix = 0` to the raw estimate. -/
def accumulate (L : Libm α) (channels npixels : Nat) (imtmp : List (FVal α))
    (par : Shades_param) : Option (Acc α) :=
  let th : FVal α := th_val par.thresh
  let s0 : Acc α := { ill_est := { c0 := fin 0, c1 := fin 0, c2 := fin 0 }, count_pix := 0 }
  let n := pixelIters channels npixels
  if par.norm = 0 then
    forLoop (maxRgbPixel channels imtmp th) n s0
  else if par.norm = 1 then
    forLoop (sumPixel (fun x => x) channels imtmp th) n s0
  else if par.norm = 2 then
    (forLoop (sumPixel POW2 channels imtmp th) n s0).map (rootAll (fsqrt L))
  else if par.norm = 3 then
    (forLoop (sumPixel POW3 channels imtmp th) n s0).map (rootAll (fcbrt L))
  else if par.norm = 4 then
    (forLoop (norm4Pixel channels imtmp th) n s0).map (rootAll (fun e => fpow L e 0.25))
  else if 4 < par.norm then
    let root : α := 1 / (par.norm : α)
    (forLoop (sumPixel (fun x => powN x par.norm.toNat) channels imtmp th) n s0).map
      (rootAll (fun e => fpow L e root))
  else some s0

/-! ## Illuminant normaliser -/

/-- The first three statements under "Normalise illuminant": `ill_est[j] /= count_pix`. -/
def divide_by_count (s : Acc α) : Vec3 (FVal α) :=
  let cnt : FVal α := fin (s.count_pix : α)
  { c0 := s.ill_est.c0 / cnt, c1 := s.ill_est.c1 / cnt, c2 := s.ill_est.c2 / cnt }

/-- The rest of the block: `ill_norm = sqrt(...)` and `ill_est[j] /= ill_norm`. -/
def divide_by_norm (L : Libm α) (e : Vec3 (FVal α)) : Vec3 (FVal α) :=
  let ill_norm := fsqrt L (e.c0 * e.c0 + e.c1 * e.c1 + e.c2 * e.c2)
  { c0 := e.c0 / ill_norm, c1 := e.c1 / ill_norm, c2 := e.c2 / ill_norm }

/-- The block under "Normalise illuminant": for `par.norm != 0` the division of `ill_est`
by `count_pix` and then by its Euclidean norm; for `par.norm == 0` nothing. -/
def normalise (L : Libm α) (norm : Int) (s : Acc α) : Vec3 (FVal α) :=
  if norm ≠ 0 then divide_by_norm L (divide_by_count s) else s.ill_est

/-- The illuminant `app_ill` handed to the applier: accumulate, normalise, narrow to
`gfloat`. -/
def estimate_illuminant (L : Libm α) (channels npixels : Nat) (imtmp : List (FVal α))
    (par : Shades_param) : Option (Vec3 (FVal α)) :=
  (accumulate L channels npixels imtmp par).map (normalise L par.norm)

/-! ## Adaptation applier -/

/-- The state of the first applier loop: the buffer `imtmp` and `immax`. -/
structure Gain (α : Type) where
  /-- The buffer `imtmp`. -/
  imtmp : List (FVal α)
  /-- The running maximum `immax`. -/
  immax : FVal α

/-- One pixel of the gain loop: for every `k` below `channels`,
`imtmp[i+k] /= app_ill[k]; if (imtmp[i+k] > immax) immax = imtmp[i+k]`. -/
def gainPixel (channels : Nat) (app_ill : Vec3 (FVal α)) (p : Nat) (s : Gain α) :
    Option (Gain α) :=
  let i := p * channels
  forLoop (fun k (g : Gain α) =>
    (g.imtmp[i + k]?).bind fun x =>
      (app_ill.get? k).bind fun a =>
        (wr g.imtmp (i + k) (x / a)).map fun buf =>
          { imtmp := buf, immax := if FVal.gt (x / a) g.immax then x / a else g.immax })
    channels s

/-- The gain loop over the region, from `immax = 0.0`. -/
def applyGain (channels npixels : Nat) (imtmp : List (FVal α)) (app_ill : Vec3 (FVal α)) :
    Option (Gain α) :=
  forLoop (gainPixel channels app_ill) (pixelIters channels npixels)
    { imtmp := imtmp, immax := fin 0 }

/-- One pixel of the "reducing maxima" loop: the first three samples divided by `immax`. -/
def rescalePixel (channels : Nat) (immax : FVal α) (p : Nat) (buf : List (FVal α)) :
    Option (List (FVal α)) :=
  let i := p * channels
  (buf[i]?).bind fun a =>
    (wr buf i (a / immax)).bind fun buf1 =>
      (buf1[i + 1]?).bind fun b =>
        (wr buf1 (i + 1) (b / immax)).bind fun buf2 =>
          (buf2[i + 2]?).bind fun c => wr buf2 (i + 2) (c / immax)

/-- The applier: the gain loop, then the rescale by `immax` when `immax > 1.0`. -/
def apply_illuminant (channels npixels : Nat) (imtmp : List (FVal α))
    (app_ill : Vec3 (FVal α)) : Option (List (FVal α)) :=
  (applyGain channels npixels imtmp app_ill).bind fun g =>
    if FVal.gt g.immax (fin 1) then
      forLoop (rescalePixel channels g.immax) (pixelIters channels npixels) g.imtmp
    else some g.imtmp

/-! ## The host and the pipeline -/

/-- The drawable the host hands over: bytes per pixel, the mask bounds and the pixels. -/
structure Drawable where
  /-- The result of `gimp_drawable_bpp`. -/
  bpp : Nat
  /-- Left mask bound. -/
  x1 : Int
  /-- Top mask bound. -/
  y1 : Int
  /-- Right mask bound. -/
  x2 : Int
  /-- Bottom mask bound. -/
  y2 : Int
  /-- The byte of channel `k` of the pixel at `(x, y)`. -/
  pixel : Int → Int → Nat → Byte

/-- The position and size of a `GimpPreview`. -/
structure Preview where
  /-- Left edge. -/
  px1 : Int
  /-- Top edge. -/
  py1 : Int
  /-- Width in pixels. -/
  width : Nat
  /-- Height in pixels. -/
  height : Nat

/-- The host call `gimp_pixel_rgn_get_rect`: the rectangle at `(x, y)` of size `w` by `h`,
row-major with interleaved channels. -/
def get_rect (d : Drawable) (x y : Int) (w h : Nat) : List Byte :=
  (List.range (w * h * d.bpp)).map fun j =>
    d.pixel (x + ((j / d.bpp % w : Nat) : Int)) (y + ((j / d.bpp / w : Nat) : Int)) (j % d.bpp)

/-- The locals of `shades_of_grey` when the illuminant has been estimated. -/
structure Estimated (α : Type) where
  /-- The number of channels. -/
  channels : Nat
  /-- The width of the region to correct. -/
  width : Nat
  /-- The height of the region to correct. -/
  height : Nat
  /-- The number of pixels inside the mask bounds. -/
  npixels : Nat
  /-- The decoded pixels inside the mask bounds. -/
  imtmp : List (FVal α)
  /-- The illuminant to apply. -/
  app_ill : Vec3 (FVal α)

/-- The first part of `shades_of_grey`, up to `app_ill`: region set-up, decoding of the
pixels inside the mask bounds, estimation and normalisation. -/
def shades_of_grey_estimate (L : Libm α) (d : Drawable) (par : Shades_param)
    (preview : Option Preview) : Option (Estimated α) :=
  let w0 := (d.x2 - d.x1).toNat
  let h0 := (d.y2 - d.y1).toNat
  let width := match preview with
    | some pv => pv.width
    | none => w0
  let height := match preview with
    | some pv => pv.height
    | none => h0
  let channels := d.bpp
  let npixels := w0 * h0
  let imagein := get_rect d d.x1 d.y1 w0 h0
  (sRGB2linearLU L imagein (npixels * channels)).bind fun imtmp =>
    (estimate_illuminant L channels npixels imtmp par).map fun app_ill =>
      { channels := channels, width := width, height := height, npixels := npixels,
        imtmp := imtmp, app_ill := app_ill }

/-- The rectangle and the bytes `shades_of_grey` hands to `gimp_pixel_rgn_set_rect`. -/
structure Written where
  /-- Left edge. -/
  x : Int
  /-- Top edge. -/
  y : Int
  /-- Width. -/
  w : Nat
  /-- Height. -/
  h : Nat
  /-- The buffer `imageout`. -/
  imageout : List Byte

/-- The function `shades_of_grey`: `preview = none` is the call with a null preview. -/
def shades_of_grey [FloorRing α] (L : Libm α) (d : Drawable) (par : Shades_param)
    (preview : Option Preview) : Option Written :=
  (shades_of_grey_estimate L d par preview).bind fun e =>
    let applied : Option (List (FVal α)) :=
      match preview with
      | none => apply_illuminant e.channels e.npixels e.imtmp e.app_ill
      | some pv =>
        let imagein := get_rect d pv.px1 pv.py1 e.width e.height
        (sRGB2linearLU L imagein (e.channels * e.width * e.height)).bind fun imtmp =>
          apply_illuminant e.channels (e.width * e.height) imtmp e.app_ill
    applied.bind fun imtmp =>
      (linear2sRGB L imtmp (e.width * e.height * e.channels)).bind fun lin =>
        (float2im lin (e.width * e.height * e.channels)).map fun imageout =>
          match preview with
          | none =>
            { x := d.x1, y := d.y1, w := (d.x2 - d.x1).toNat, h := (d.y2 - d.y1).toNat,
              imageout := imageout }
          | some pv =>
            { x := pv.px1, y := pv.py1, w := e.width, h := e.height, imageout := imageout }

/-- The `par.norm > 4` branch of the accumulator taken for the order `p`: the sums of
`powN(value, p)` over the eligible pixels from `ill_est = 0` and `count_pix = 0`, then
`pow(ill_est[j], root)` with `root = 1.0/p`. -/
def generic_branch (L : Libm α) (channels npixels : Nat) (imtmp : List (FVal α))
    (thresh : Int) (p : Int) : Option (Acc α) :=
  let th : FVal α := th_val thresh
  let s0 : Acc α := { ill_est := { c0 := fin 0, c1 := fin 0, c2 := fin 0 }, count_pix := 0 }
  let n := pixelIters channels npixels
  let root : α := 1 / (p : α)
  (forLoop (sumPixel (fun x => powN x p.toNat) channels imtmp th) n s0).map
    (rootAll (fun e => fpow L e root))

/-! ## The entry point -/

/-- The run modes `run` distinguishes; `other` is the `default` case of its `switch`. -/
inductive RunMode where
  | interactive
  | noninteractive
  | with_last_vals
  | other
  deriving DecidableEq

/-- The status values `run` handles. -/
inductive PDBStatus where
  | success
  | calling_error
  deriving DecidableEq

/-- What a call of `run` leaves behind. -/
structure RunResult where
  /-- The status in `values[0]`, handed back to the caller. -/
  d_status : PDBStatus
  /-- The global `par` after the call. -/
  par : Shades_param
  /-- What `shades_of_grey` wrote; `none` when it was not called. -/
  written : Option Written

/-- The function `run`.  `par` is the global parameter record before the call, `stored`
what `gimp_get_data` finds (nothing stored leaves `par` as it is), `dialog` the outcome of
`shades_dialog` (the parameters it leaves and whether OK was pressed), `param3` the value
`param[3].data.d_int32`.  The status is copied into `values[0]` before the `switch` and
`values[0]` is not assigned again. -/
def run [FloorRing α] (L : Libm α) (par : Shades_param) (stored : Option Shades_param)
    (dialog : Shades_param → Shades_param × Bool) (run_mode : RunMode) (nparams : Nat)
    (param3 : Int) (d : Drawable) : Option RunResult :=
  let status : PDBStatus := PDBStatus.success
  let d_status := status
  let finish (par1 : Shades_param) : Option RunResult :=
    (shades_of_grey L d par1 none).map fun w =>
      { d_status := d_status, par := par1, written := some w }
  match run_mode with
  | RunMode.interactive =>
    let res := dialog (stored.getD par)
    if res.2 then finish res.1
    else some { d_status := d_status, par := res.1, written := none }
  | RunMode.noninteractive =>
    let status := if nparams ≠ 4 then PDBStatus.calling_error else status
    finish (if status = PDBStatus.success then { par with thresh := param3 } else par)
  | RunMode.with_last_vals => finish (stored.getD par)
  | RunMode.other => finish par

end Core

/-! ## Floating-point values: finite cases -/

section CodecLemmas

variable {α : Type} [LinearOrderedField α]

@[simp] theorem fin_add_fin (x y : α) : (fin x + fin y : FVal α) = fin (x + y) := rfl
@[simp] theorem fin_mul_fin (x y : α) : (fin x * fin y : FVal α) = fin (x * y) := rfl
@[simp] theorem fin_sub_fin (x y : α) : (fin x - fin y : FVal α) = fin (x - y) := by
  show FVal.add (fin x) (FVal.neg (fin y)) = _
  simp [FVal.add, FVal.neg, sub_eq_add_neg]
theorem fin_div_fin (x y : α) (h : y ≠ 0) : (fin x / fin y : FVal α) = fin (x / y) := by
  show FVal.div (fin x) (fin y) = _
  simp [FVal.div, h]
@[simp] theorem le_fin_fin (x y : α) : FVal.le (fin x) (fin y) = decide (x ≤ y) := rfl
@[simp] theorem lt_fin_fin (x y : α) : FVal.lt (fin x) (fin y) = decide (x < y) := rfl
@[simp] theorem gt_fin_fin (x y : α) : FVal.gt (fin x) (fin y) = decide (y < x) := rfl

/-- The two clamps that end the loop body of `linear2sRGB` leave a finite value of
`[0,1]`, whatever they receive. -/
theorem clamp01_fin (v : FVal α) :
    ∃ w : α, (if FVal.lt (if FVal.gt v (fin 0) then v else fin 0) (fin 1)
        then (if FVal.gt v (fin 0) then v else fin 0) else fin 1) = fin w ∧ 0 ≤ w ∧ w ≤ 1 := by
  cases v with
  | fin a =>
    by_cases h0 : 0 < a
    · by_cases h1 : a < 1
      · exact ⟨a, by simp [h0, h1], h0.le, h1.le⟩
      · exact ⟨1, by simp [h0, h1], zero_le_one, le_refl _⟩
    · exact ⟨0, by simp [h0], le_refl _, zero_le_one⟩
  | pinf => exact ⟨1, by simp [FVal.gt, FVal.lt], zero_le_one, le_refl _⟩
  | ninf => exact ⟨0, by simp [FVal.gt, FVal.lt], le_refl _, zero_le_one⟩
  | nan => exact ⟨0, by simp [FVal.gt, FVal.lt], le_refl _, zero_le_one⟩

theorem linear2sRGB1_fin (L : Libm α) (x : FVal α) :
    ∃ w : α, linear2sRGB1 L x = fin w ∧ 0 ≤ w ∧ w ≤ 1 := by
  unfold linear2sRGB1
  exact clamp01_fin _

theorem float2imClip_fin (w : α) (h0 : 0 ≤ w) (h1 : w ≤ 1) :
    float2imClip (fin w) = fin w := by
  unfold float2imClip gMIN gMAX
  rcases h0.eq_or_lt with h | h
  · subst h; simp
  · rcases h1.eq_or_lt with h' | h'
    · subst h'; simp
    · simp [h, h']

theorem float2im1_fin [FloorRing α] (w : α) (h0 : 0 ≤ w) (h1 : w ≤ 1) :
    ∃ n : Nat, n ≤ 255 ∧ float2imRound (fin w) = fin (n : α) ∧
      (float2im1 (fin w)).map Fin.val = some n ∧ (n : Int) = ⌊w * 255 + 1 / 2⌋ := by
  have hw : 0 ≤ w * 255 := by positivity
  have hfl0 : 0 ≤ ⌊w * 255 + 1 / 2⌋ := Int.floor_nonneg.mpr (by positivity)
  have hfl1 : ⌊w * 255 + 1 / 2⌋ < 256 := by
    rw [Int.floor_lt]
    push_cast
    linarith
  obtain ⟨n, hn⟩ := Int.eq_ofNat_of_zero_le hfl0
  have hn255 : n ≤ 255 := by omega
  have hr : float2imRound (fin w) = fin (n : α) := by
    unfold float2imRound
    rw [float2imClip_fin w h0 h1]
    simp only [fin_mul_fin, roundf, hw, if_true, hn]
    simp
  refine ⟨n, hn255, hr, ?_, hn.symm⟩
  unfold float2im1
  rw [hr]
  have hlt : (-1 : α) < (n : α) ∧ (n : α) < 256 := by
    constructor
    · have : (0 : α) ≤ (n : α) := Nat.cast_nonneg n
      linarith
    · have : (n : α) ≤ 255 := by exact_mod_cast hn255
      linarith
  simp only [toGuint8, hlt, and_self, dite_true, Option.map_some', Option.some.injEq]
  have : ⌊(n : α)⌋ = (n : Int) := by
    simp
  rw [this]
  simp
  omega

/-- Claim C2. Whatever sample `linear2sRGB` receives (finite of any sign or size, an
infinity or NaN) it leaves a finite value `w` of `[0,1]`; the value `roundf(t*255.0)` that
`float2im` then narrows is an integer `n` of `[0,255]`, and the byte written is exactly
`n`: the narrowing is defined and does not wrap. -/
theorem linear2sRGB_float2im_gamut_safe [FloorRing α] (L : Libm α) (x : FVal α) :
    ∃ (w : α) (n : Nat), linear2sRGB1 L x = fin w ∧ 0 ≤ w ∧ w ≤ 1 ∧
      float2imRound (linear2sRGB1 L x) = fin (n : α) ∧ n ≤ 255 ∧
      (float2im1 (linear2sRGB1 L x)).map Fin.val = some n := by
  obtain ⟨w, hw, h0, h1⟩ := linear2sRGB1_fin L x
  obtain ⟨n, hn, hr, hb, _⟩ := float2im1_fin w h0 h1
  exact ⟨w, n, hw, h0, h1, hw ▸ hr, hn, hw ▸ hb⟩
end CodecLemmas

/-! ## The round trip of the byte 255 -/

theorem rpow_1055_bounds :
    (1.0217 : ℝ) < (1.055 : ℝ) ^ ((1 : ℝ) / 2.4) ∧ (1.055 : ℝ) ^ ((1 : ℝ) / 2.4) < 1.0255 := by
  set r : ℝ := (1.055 : ℝ) ^ ((1 : ℝ) / 2.4) with hr
  have hr0 : 0 ≤ r := Real.rpow_nonneg (by norm_num) _
  have h12 : r ^ 12 = (1.055 : ℝ) ^ 5 := by
    rw [hr, ← Real.rpow_natCast, ← Real.rpow_mul (by norm_num)]
    have : ((1 : ℝ) / 2.4) * ((12 : ℕ) : ℝ) = ((5 : ℕ) : ℝ) := by norm_num
    rw [this, Real.rpow_natCast]
  constructor
  · by_contra h
    push_neg at h
    have : r ^ 12 ≤ (1.0217 : ℝ) ^ 12 := pow_le_pow_left₀ hr0 h 12
    rw [h12] at this
    norm_num at this
  · by_contra h
    push_neg at h
    have : (1.0255 : ℝ) ^ 12 ≤ r ^ 12 := pow_le_pow_left₀ (by norm_num) h 12
    rw [h12] at this
    norm_num at this

theorem lookup_255 : lookup realLibm 255 = fin 1 := by
  unfold lookup
  have h1 : ¬ ((255 : ℕ) : ℝ) / 255 ≤ 0.03928 := by norm_num
  have h2 : (((255 : ℕ) : ℝ) / 255 + 0.055) / 1.055 = 1 := by norm_num
  simp only [le_fin_fin, h1, decide_False, fin_add_fin, Bool.false_eq_true, if_false]
  rw [fin_div_fin _ _ (by norm_num), h2]
  simp [fpow, realLibm]

theorem linear2sRGB1_one :
    linear2sRGB1 realLibm (fin 1) = fin ((1.055 : ℝ) ^ ((1 : ℝ) / 2.4) - 0.055) := by
  obtain ⟨hlo, hhi⟩ := rpow_1055_bounds
  unfold linear2sRGB1
  have h1 : ¬ (1 : ℝ) ≤ 0.00304 := by norm_num
  have h2 : ¬ ((1.055 : ℝ) < 0) := by norm_num
  have h3 : (0 : ℝ) < (1.055 : ℝ) ^ ((1 : ℝ) / 2.4) - 0.055 := by linarith
  have h4 : (1.055 : ℝ) ^ ((1 : ℝ) / 2.4) - 0.055 < 1 := by linarith
  simp only [le_fin_fin, h1, decide_False, Bool.false_eq_true, if_false, fin_mul_fin, one_mul,
    fpow, h2, realLibm, fin_sub_fin, gt_fin_fin, lt_fin_fin, h3, h4, decide_True, if_true]

/-- The linear value 1.0 is encoded by `linear2sRGB` and `float2im` as the byte 247. -/
theorem encode_one_is_247 : float2im1 (linear2sRGB1 realLibm (fin 1)) = some 247 := by
  obtain ⟨hlo, hhi⟩ := rpow_1055_bounds
  rw [linear2sRGB1_one]
  obtain ⟨n, _, _, hb, hn⟩ := float2im1_fin ((1.055 : ℝ) ^ ((1 : ℝ) / 2.4) - 0.055)
    (by linarith) (by linarith)
  have hfl : ⌊((1.055 : ℝ) ^ ((1 : ℝ) / 2.4) - 0.055) * 255 + 1 / 2⌋ = 247 := by
    rw [Int.floor_eq_iff]
    constructor
    · push_cast; linarith
    · push_cast; linarith
  rw [hfl] at hn
  have hn' : n = 247 := by exact_mod_cast hn
  subst hn'
  cases h : float2im1 (fin ((1.055 : ℝ) ^ ((1 : ℝ) / 2.4) - 0.055)) with
  | none => rw [h] at hb; simp at hb
  | some b =>
    rw [h] at hb
    simp only [Option.map_some', Option.some.injEq] at hb
    congr 1
    exact Fin.ext hb

/-- Claim C1. The byte 255 decoded by the table of `sRGB2linearLU` and re-encoded by
`linear2sRGB` and `float2im` comes back as 247. -/
theorem roundtrip_255_is_247 :
    float2im1 (linear2sRGB1 realLibm (lookup realLibm 255)) = some 247 := by
  rw [lookup_255]
  exact encode_one_is_247

/-! ## The accumulation loops -/

section LoopLemmas

variable {α : Type} [LinearOrderedField α]

theorem th_val_eq (thresh : Int) : (th_val thresh : FVal α) = fin (1 - (thresh : α) / 100) := by
  unfold th_val
  rw [fin_div_fin _ _ (by norm_num), fin_sub_fin]

theorem getElem?_map_fin (xs : List α) (i : Nat) (h : i < xs.length) :
    (xs.map fin)[i]? = some (fin (xs.getD i 0)) := by
  rw [List.getElem?_map, List.getElem?_eq_getElem h, List.getD_eq_getElem _ _ h]
  rfl

/-- The macro `CHECK_TH` on a finite image, the three samples in bounds. -/
theorem CHECK_TH_fin (xs : List α) (i : Nat) (t : α) (h : i + 2 < xs.length) :
    CHECK_TH (xs.map fin) i (fin t) = some (decide (Eligible xs i t)) := by
  have hd : decide (Eligible xs i t) =
      (decide (xs.getD i 0 ≤ t) && (decide (xs.getD (i + 1) 0 ≤ t) &&
        decide (xs.getD (i + 2) 0 ≤ t))) := by
    simp only [Eligible, Bool.decide_and]
  rw [hd]
  unfold CHECK_TH
  rw [getElem?_map_fin xs i (by omega), getElem?_map_fin xs (i + 1) (by omega),
    getElem?_map_fin xs (i + 2) (by omega)]
  generalize xs.getD i 0 = a
  generalize xs.getD (i + 1) 0 = b
  generalize xs.getD (i + 2) 0 = c
  by_cases h0 : a ≤ t <;> by_cases h1 : b ≤ t <;> by_cases h2 : c ≤ t <;> simp [h0, h1, h2]

theorem forLoop_three {σ : Type} (body : Nat → σ → Option σ) (s : σ) :
    forLoop body 3 s = ((body 0 s).bind (body 1)).bind (body 2) := by
  simp [forLoop]

/-- One pixel of the Max-RGB loop on a finite three-channel image. -/
theorem maxRgbPixel_fin (xs : List α) (t : α) (p cnt : Nat) (m0 m1 m2 : α)
    (h : 3 * p + 2 < xs.length) :
    maxRgbPixel 3 (xs.map fin) (fin t) p
        { ill_est := { c0 := fin m0, c1 := fin m1, c2 := fin m2 }, count_pix := cnt } =
      some { ill_est :=
              { c0 := fin (if Eligible xs (3 * p) t then max m0 (xs.getD (3 * p + 0) 0) else m0),
                c1 := fin (if Eligible xs (3 * p) t then max m1 (xs.getD (3 * p + 1) 0) else m1),
                c2 := fin (if Eligible xs (3 * p) t then max m2 (xs.getD (3 * p + 2) 0) else m2) },
             count_pix := cnt } := by
  unfold maxRgbPixel
  simp only [mul_comm p 3]
  rw [CHECK_TH_fin xs (3 * p) t h]
  simp only [Option.some_bind, forLoop_three, Nat.add_zero]
  rw [getElem?_map_fin xs (3 * p) (by omega), getElem?_map_fin xs (3 * p + 1) (by omega),
    getElem?_map_fin xs (3 * p + 2) (by omega)]
  generalize xs.getD (3 * p) 0 = a
  generalize xs.getD (3 * p + 1) 0 = b
  generalize xs.getD (3 * p + 2) 0 = c
  by_cases hE : Eligible xs (3 * p) t
  · simp only [hE, decide_True, if_true]
    by_cases h0 : m0 < a <;> by_cases h1 : m1 < b <;> by_cases h2 : m2 < c <;>
    simp [Vec3.get?, Vec3.set?, h0, h1, h2, max_eq_right, max_eq_left, le_of_lt, not_lt.mp]
  · simp [hE]

/-- The running maximum over the pixels that pass a test, one step. -/
theorem runningMax_step (E : Nat → Prop) [DecidablePred E] (X : Nat → α) (j : Nat) (v : α)
    (h0 : 0 ≤ v) (hub : ∀ p < j, E p → X p ≤ v) (hat : v = 0 ∨ ∃ p < j, E p ∧ X p = v) :
    0 ≤ (if E j then max v (X j) else v) ∧
      (∀ p < j + 1, E p → X p ≤ (if E j then max v (X j) else v)) ∧
      ((if E j then max v (X j) else v) = 0 ∨
        ∃ p < j + 1, E p ∧ X p = (if E j then max v (X j) else v)) := by
  by_cases hE : E j
  · simp only [hE, if_true]
    refine ⟨le_max_of_le_left h0, ?_, ?_⟩
    · intro p hp hEp
      rcases Nat.lt_succ_iff_lt_or_eq.mp hp with hlt | heq
      · exact le_max_of_le_left (hub p hlt hEp)
      · subst heq; exact le_max_right _ _
    · rcases le_total v (X j) with hle | hle
      · right
        exact ⟨j, Nat.lt_succ_self j, hE, (max_eq_right hle).symm⟩
      · rw [max_eq_left hle]
        rcases hat with hz | ⟨p, hp, hEp, hX⟩
        · exact Or.inl hz
        · exact Or.inr ⟨p, Nat.lt_succ_of_lt hp, hEp, hX⟩
  · simp only [hE, if_false]
    refine ⟨h0, ?_, ?_⟩
    · intro p hp hEp
      rcases Nat.lt_succ_iff_lt_or_eq.mp hp with hlt | heq
      · exact hub p hlt hEp
      · subst heq; exact absurd hEp hE
    · rcases hat with hz | ⟨p, hp, hEp, hX⟩
      · exact Or.inl hz
      · exact Or.inr ⟨p, Nat.lt_succ_of_lt hp, hEp, hX⟩

/-- The Max-RGB loop on a finite three-channel image: after `j` pixels every element of
`ill_est` is the running maximum, from 0, of its channel over the eligible pixels. -/
theorem maxRgb_loop (xs : List α) (t : α) (n : Nat) (hlen : xs.length = 3 * n) :
    ∀ j ≤ n, ∃ m : Nat → α,
      forLoop (maxRgbPixel 3 (xs.map fin) (fin t)) j
          { ill_est := { c0 := fin 0, c1 := fin 0, c2 := fin 0 }, count_pix := 0 } =
        some { ill_est := { c0 := fin (m 0), c1 := fin (m 1), c2 := fin (m 2) }, count_pix := 0 } ∧
      ∀ k < 3, 0 ≤ m k ∧
        (∀ p < j, Eligible xs (3 * p) t → xs.getD (3 * p + k) 0 ≤ m k) ∧
        (m k = 0 ∨ ∃ p < j, Eligible xs (3 * p) t ∧ xs.getD (3 * p + k) 0 = m k) := by
  intro j
  induction j with
  | zero =>
    intro _
    refine ⟨fun _ => 0, rfl, ?_⟩
    intro k _
    exact ⟨le_refl _, fun p hp => absurd hp (Nat.not_lt_zero p), Or.inl rfl⟩
  | succ j ih =>
    intro hj
    obtain ⟨m, hm, hinv⟩ := ih (Nat.le_of_succ_le hj)
    refine ⟨fun k => if Eligible xs (3 * j) t then max (m k) (xs.getD (3 * j + k) 0) else m k,
      ?_, ?_⟩
    · simp only [forLoop, hm, Option.some_bind]
      exact maxRgbPixel_fin xs t j 0 (m 0) (m 1) (m 2) (by omega)
    · intro k hk
      obtain ⟨h0, hub, hat⟩ := hinv k hk
      exact runningMax_step (fun p => Eligible xs (3 * p) t) (fun p => xs.getD (3 * p + k) 0)
        j (m k) h0 hub hat

/-- Claim C3. Max-RGB (`par.norm == 0`) on a three-channel linear image with non-negative
samples and at least one eligible pixel: each element `k` of the illuminant handed to the
applier is the maximum of channel `k` over the eligible pixels, attained at one of them
and not averaged or renormalised. -/
theorem maxRgb_illuminant_is_channel_max (L : Libm α) (xs : List α) (n : Nat) (thresh : Int)
    (pv : Bool) (hlen : xs.length = 3 * n) (hnn : ∀ x ∈ xs, 0 ≤ x)
    (hel : ∃ p < n, Eligible xs (3 * p) (1 - (thresh : α) / 100)) :
    ∃ m : Nat → α,
      estimate_illuminant L 3 n (xs.map fin) { thresh := thresh, norm := 0, preview := pv } =
        some { c0 := fin (m 0), c1 := fin (m 1), c2 := fin (m 2) } ∧
      ∀ k < 3,
        (∃ p < n, Eligible xs (3 * p) (1 - (thresh : α) / 100) ∧ xs.getD (3 * p + k) 0 = m k) ∧
        (∀ p < n, Eligible xs (3 * p) (1 - (thresh : α) / 100) → xs.getD (3 * p + k) 0 ≤ m k) := by
  obtain ⟨m, hm, hinv⟩ := maxRgb_loop xs (1 - (thresh : α) / 100) n hlen n (le_refl n)
  refine ⟨m, ?_, ?_⟩
  · have hacc : accumulate L 3 n (xs.map fin) { thresh := thresh, norm := 0, preview := pv } =
        some { ill_est := { c0 := fin (m 0), c1 := fin (m 1), c2 := fin (m 2) },
               count_pix := 0 } := by
      simp only [accumulate, th_val_eq, pixelIters, if_true]
      simpa using hm
    rw [estimate_illuminant, hacc]
    simp [normalise]
  · intro k hk
    obtain ⟨_, hub, hat⟩ := hinv k hk
    refine ⟨?_, hub⟩
    rcases hat with hz | hex
    · obtain ⟨p, hp, hEp⟩ := hel
      refine ⟨p, hp, hEp, ?_⟩
      have h1 := hub p hp hEp
      have h2 : 0 ≤ xs.getD (3 * p + k) 0 := by
        have hi : 3 * p + k < xs.length := by omega
        rw [List.getD_eq_getElem _ _ hi]
        exact hnn _ (List.getElem_mem hi)
      rw [hz] at h1 ⊢
      exact le_antisymm h1 h2
    · exact hex

end LoopLemmas

section SumLemmas

variable {α : Type} [LinearOrderedField α]

theorem pixel_in_bounds {c n p : Nat} (hc : 3 ≤ c) (hp : p < n) : c * p + 2 < c * n := by
  have h1 : c * (p + 1) ≤ c * n := Nat.mul_le_mul_left c hp
  rw [Nat.mul_succ] at h1
  omega

/-- One pixel of a summing loop on a finite image. -/
theorem sumPixel_fin (f : α → α) (F : FVal α → FVal α) (hF : ∀ x, F (fin x) = fin (f x))
    (c : Nat) (xs : List α) (t : α) (p cnt : Nat) (a b d : α) (h : c * p + 2 < xs.length) :
    sumPixel F c (xs.map fin) (fin t) p
        { ill_est := { c0 := fin a, c1 := fin b, c2 := fin d }, count_pix := cnt } =
      some { ill_est :=
              { c0 := fin (if Eligible xs (c * p) t then a + f (xs.getD (c * p + 0) 0) else a),
                c1 := fin (if Eligible xs (c * p) t then b + f (xs.getD (c * p + 1) 0) else b),
                c2 := fin (if Eligible xs (c * p) t then d + f (xs.getD (c * p + 2) 0) else d) },
             count_pix := if Eligible xs (c * p) t then cnt + 1 else cnt } := by
  unfold sumPixel
  simp only [mul_comm p c]
  rw [CHECK_TH_fin xs (c * p) t h]
  simp only [Option.some_bind, Nat.add_zero]
  rw [getElem?_map_fin xs (c * p) (by omega), getElem?_map_fin xs (c * p + 1) (by omega),
    getElem?_map_fin xs (c * p + 2) (by omega)]
  by_cases hE : Eligible xs (c * p) t
  · simp [hE, hF]
  · simp [hE]

/-- A summing loop on a finite image: after `j` pixels `count_pix` is the number of
eligible pixels among them and every element of `ill_est` the sum of `f` over its channel
of these pixels. -/
theorem sum_loop (f : α → α) (F : FVal α → FVal α) (hF : ∀ x, F (fin x) = fin (f x))
    (c n : Nat) (xs : List α) (t : α) (hc : 3 ≤ c) (hlen : xs.length = c * n) :
    ∀ j ≤ n,
      forLoop (sumPixel F c (xs.map fin) (fin t)) j
          { ill_est := { c0 := fin 0, c1 := fin 0, c2 := fin 0 }, count_pix := 0 } =
        some { ill_est :=
                { c0 := fin (∑ p ∈ (Finset.range j).filter (fun p => Eligible xs (c * p) t),
                          f (xs.getD (c * p + 0) 0)),
                  c1 := fin (∑ p ∈ (Finset.range j).filter (fun p => Eligible xs (c * p) t),
                          f (xs.getD (c * p + 1) 0)),
                  c2 := fin (∑ p ∈ (Finset.range j).filter (fun p => Eligible xs (c * p) t),
                          f (xs.getD (c * p + 2) 0)) },
               count_pix := ((Finset.range j).filter (fun p => Eligible xs (c * p) t)).card } := by
  intro j
  induction j with
  | zero => intro _; simp [forLoop]
  | succ j ih =>
    intro hj
    have hb : c * j + 2 < xs.length := by
      rw [hlen]; exact pixel_in_bounds hc (by omega)
    simp only [forLoop, ih (Nat.le_of_succ_le hj), Option.some_bind]
    rw [sumPixel_fin f F hF c xs t j _ _ _ _ hb]
    have hnot : j ∉ (Finset.range j).filter (fun p => Eligible xs (c * p) t) := by
      simp
    by_cases hE : Eligible xs (c * j) t
    · simp only [hE, if_true, Finset.range_succ, Finset.filter_insert]
      rw [Finset.sum_insert hnot, Finset.sum_insert hnot, Finset.sum_insert hnot,
        Finset.card_insert_of_not_mem hnot]
      simp only [add_comm]
    · simp only [hE, if_false, Finset.range_succ, Finset.filter_insert]

/-- Claim C4. Grey-World (`par.norm == 1`) on a linear image of at least three channels with
an eligible pixel: `count_pix` is the number of eligible pixels, and dividing `ill_est` by
it gives, in every channel, the arithmetic mean of the channel over the eligible pixels. -/
theorem greyWorld_estimate_is_mean (L : Libm α) (c n : Nat) (xs : List α) (thresh : Int)
    (pv : Bool) (hc : 3 ≤ c) (hlen : xs.length = c * n)
    (hel : ∃ p < n, Eligible xs (c * p) (1 - (thresh : α) / 100)) :
    ∃ s : Acc α,
      accumulate L c n (xs.map fin) { thresh := thresh, norm := 1, preview := pv } = some s ∧
      s.count_pix =
        ((Finset.range n).filter (fun p => Eligible xs (c * p) (1 - (thresh : α) / 100))).card ∧
      0 < s.count_pix ∧
      divide_by_count s =
        { c0 := fin ((∑ p ∈ (Finset.range n).filter
                (fun p => Eligible xs (c * p) (1 - (thresh : α) / 100)),
                  xs.getD (c * p + 0) 0) / (s.count_pix : α)),
          c1 := fin ((∑ p ∈ (Finset.range n).filter
                (fun p => Eligible xs (c * p) (1 - (thresh : α) / 100)),
                  xs.getD (c * p + 1) 0) / (s.count_pix : α)),
          c2 := fin ((∑ p ∈ (Finset.range n).filter
                (fun p => Eligible xs (c * p) (1 - (thresh : α) / 100)),
                  xs.getD (c * p + 2) 0) / (s.count_pix : α)) } := by
  have hloop := sum_loop (fun x => x) (fun x => x) (fun _ => rfl) c n xs
    (1 - (thresh : α) / 100) hc hlen n (le_refl n)
  have hpos : 0 < ((Finset.range n).filter
      (fun p => Eligible xs (c * p) (1 - (thresh : α) / 100))).card := by
    obtain ⟨p, hp, hE⟩ := hel
    exact Finset.card_pos.mpr ⟨p, by simp [hp, hE]⟩
  have hc0 : c ≠ 0 := by omega
  have hne : (((Finset.range n).filter
      (fun p => Eligible xs (c * p) (1 - (thresh : α) / 100))).card : α) ≠ 0 := by
    exact_mod_cast hpos.ne'
  generalize (Finset.range n).filter
    (fun p => Eligible xs (c * p) (1 - (thresh : α) / 100)) = E at hloop hpos hne ⊢
  have hacc : accumulate L c n (xs.map fin) { thresh := thresh, norm := 1, preview := pv } =
      some { ill_est := { c0 := fin (∑ p ∈ E, xs.getD (c * p + 0) 0),
                          c1 := fin (∑ p ∈ E, xs.getD (c * p + 1) 0),
                          c2 := fin (∑ p ∈ E, xs.getD (c * p + 2) 0) },
             count_pix := E.card } := by
    simp only [accumulate, th_val_eq, pixelIters, hc0, if_false]
    simpa using hloop
  refine ⟨_, hacc, rfl, hpos, ?_⟩
  simp only [divide_by_count]
  rw [fin_div_fin _ _ hne, fin_div_fin _ _ hne, fin_div_fin _ _ hne]

end SumLemmas
section CountLemmas

variable {α : Type} [LinearOrderedField α]

/-- With three channels the inner loop of the `par.norm == 4` branch touches `ill_est[0]`,
`ill_est[1]` and `ill_est[2]` only: the pixel step is the summing step of the fourth
power. -/
theorem norm4Pixel_three (im : List (FVal α)) (th : FVal α) (p : Nat) (s : Acc α) :
    norm4Pixel 3 im th p s = sumPixel (fun x => POW2 (POW2 x)) 3 im th p s := by
  unfold norm4Pixel sumPixel
  dsimp only
  generalize CHECK_TH im (p * 3) th = r
  cases r with
  | none => rfl
  | some b =>
    cases b with
    | false => rfl
    | true =>
      simp only [Option.some_bind, if_true, forLoop_three, Nat.add_zero]
      generalize im[p * 3]? = r0
      generalize im[p * 3 + 1]? = r1
      generalize im[p * 3 + 2]? = r2
      cases r0 <;> cases r1 <;> cases r2 <;> simp [Vec3.get?, Vec3.set?]

/-- In bounds, `CHECK_TH` has a value. -/
theorem CHECK_TH_some (im : List (FVal α)) (i : Nat) (th : FVal α) (h : i + 2 < im.length) :
    ∃ b, CHECK_TH im i th = some b := by
  unfold CHECK_TH
  rw [List.getElem?_eq_getElem (show i < im.length by omega),
    List.getElem?_eq_getElem (show i + 1 < im.length by omega),
    List.getElem?_eq_getElem (show i + 2 < im.length by omega)]
  simp only
  split_ifs <;> exact ⟨_, rfl⟩

/-- One pixel of a summing loop, in bounds: `count_pix` grows by one exactly when the
pixel passes `CHECK_TH`, and nothing changes when it does not. -/
theorem sumPixel_count (F : FVal α → FVal α) (c : Nat) (im : List (FVal α)) (th : FVal α)
    (p : Nat) (s : Acc α) (h : p * c + 2 < im.length) :
    ∃ s', sumPixel F c im th p s = some s' ∧
      s'.count_pix = (if CHECK_TH im (p * c) th = some true then s.count_pix + 1
        else s.count_pix) ∧
      (CHECK_TH im (p * c) th = some false → s' = s) := by
  unfold sumPixel
  dsimp only
  obtain ⟨b, hb⟩ := CHECK_TH_some im (p * c) th h
  rw [hb]
  cases b with
  | false => exact ⟨s, rfl, by simp, fun _ => rfl⟩
  | true =>
    rw [List.getElem?_eq_getElem (show p * c < im.length by omega),
      List.getElem?_eq_getElem (show p * c + 1 < im.length by omega),
      List.getElem?_eq_getElem (show p * c + 2 < im.length by omega)]
    exact ⟨_, rfl, by simp, fun h => by simp at h⟩

/-- A summing loop, in bounds: it ends, and `count_pix` is the number of pixels that pass
`CHECK_TH`. -/
theorem sum_loop_count (F : FVal α → FVal α) (c n : Nat) (im : List (FVal α)) (th : FVal α)
    (hc : 3 ≤ c) (hlen : im.length = c * n) (s0 : Acc α) :
    ∀ j ≤ n, ∃ s, forLoop (sumPixel F c im th) j s0 = some s ∧
      s.count_pix = s0.count_pix +
        ((Finset.range j).filter (fun p => CHECK_TH im (p * c) th = some true)).card ∧
      ((∀ p < j, CHECK_TH im (p * c) th = some false) → s = s0) := by
  intro j
  induction j with
  | zero => intro _; exact ⟨s0, rfl, by simp, fun _ => rfl⟩
  | succ j ih =>
    intro hj
    obtain ⟨s, hs, hcnt, hsame⟩ := ih (Nat.le_of_succ_le hj)
    have hb : j * c + 2 < im.length := by
      rw [hlen, mul_comm j c]; exact pixel_in_bounds hc (by omega)
    obtain ⟨s', hs', hcnt', hsame'⟩ := sumPixel_count F c im th j s hb
    refine ⟨s', by simp only [forLoop, hs, Option.some_bind, hs'], ?_, ?_⟩
    · have hnot : j ∉ (Finset.range j).filter (fun p => CHECK_TH im (p * c) th = some true) := by
        simp
      rw [hcnt', Finset.range_succ, Finset.filter_insert]
      by_cases hE : CHECK_TH im (j * c) th = some true
      · simp only [hE, if_true]
        rw [Finset.card_insert_of_not_mem hnot, hcnt]
        omega
      · simp only [hE, if_false]
        exact hcnt
    · intro hall
      rw [hsame' (hall j (Nat.lt_succ_self j)),
        hsame (fun p hp => hall p (Nat.lt_succ_of_lt hp))]

/-- The accumulator for `par.norm >= 1`, in bounds (three channels when `par.norm == 4`):
it ends, `count_pix` is the number of pixels that pass `CHECK_TH`. -/
theorem accumulate_count (L : Libm α) (c n : Nat) (im : List (FVal α)) (par : Shades_param)
    (hc : 3 ≤ c) (hlen : im.length = c * n) (hnorm : 1 ≤ par.norm)
    (h4 : par.norm = 4 → c = 3) :
    ∃ s, accumulate L c n im par = some s ∧
      s.count_pix = ((Finset.range n).filter
        (fun p => CHECK_TH im (p * c) (th_val par.thresh) = some true)).card := by
  have hc0 : c ≠ 0 := by omega
  have h0 : par.norm ≠ 0 := by omega
  have key : ∀ F : FVal α → FVal α, ∀ r : Acc α → Acc α, (∀ s, (r s).count_pix = s.count_pix) →
      ∃ s, (forLoop (sumPixel F c im (th_val par.thresh)) n
          { ill_est := { c0 := fin 0, c1 := fin 0, c2 := fin 0 }, count_pix := 0 }).map r =
            some s ∧
        s.count_pix = ((Finset.range n).filter
          (fun p => CHECK_TH im (p * c) (th_val par.thresh) = some true)).card := by
    intro F r hr
    obtain ⟨s, hs, hcnt, _⟩ := sum_loop_count F c n im (th_val par.thresh) hc hlen
      { ill_est := { c0 := fin 0, c1 := fin 0, c2 := fin 0 }, count_pix := 0 } n (le_refl n)
    exact ⟨r s, by rw [hs]; rfl, by rw [hr, hcnt]; simp⟩
  have hit : pixelIters c n = n := by simp [pixelIters, hc0]
  unfold accumulate
  dsimp only
  rw [hit, if_neg h0]
  by_cases h1 : par.norm = 1
  · rw [if_pos h1]
    simpa using key (fun x => x) id (fun _ => rfl)
  rw [if_neg h1]
  by_cases h2 : par.norm = 2
  · rw [if_pos h2]
    exact key POW2 (rootAll (fsqrt L)) (fun _ => rfl)
  rw [if_neg h2]
  by_cases h3 : par.norm = 3
  · rw [if_pos h3]
    exact key POW3 (rootAll (fcbrt L)) (fun _ => rfl)
  rw [if_neg h3]
  by_cases h4' : par.norm = 4
  · have hc3 := h4 h4'
    subst hc3
    rw [if_pos h4']
    have hfun : norm4Pixel 3 im (th_val par.thresh) =
        sumPixel (fun x => POW2 (POW2 x)) 3 im (th_val par.thresh) := by
      funext p s; exact norm4Pixel_three im _ p s
    rw [hfun]
    exact key _ (rootAll (fun e => fpow L e 0.25)) (fun _ => rfl)
  · have h5 : 4 < par.norm := by omega
    rw [if_neg h4', if_pos h5]
    exact key _ (rootAll (fun e => fpow L e (1 / (par.norm : α)))) (fun _ => rfl)

end CountLemmas
section Threshold

variable {α : Type} [LinearOrderedField α]

theorem le_fin_mono (a : FVal α) {u v : α} (h : u ≤ v) (ha : FVal.le a (fin u) = true) :
    FVal.le a (fin v) = true := by
  cases a with
  | fin x =>
    simp only [le_fin_fin, decide_eq_true_eq] at ha ⊢
    exact le_trans ha h
  | pinf => simp [FVal.le] at ha
  | ninf => rfl
  | nan => simp [FVal.le] at ha

/-- A pixel that passes `CHECK_TH` against a value passes it against any larger one. -/
theorem CHECK_TH_mono (im : List (FVal α)) (i : Nat) {u v : α} (h : u ≤ v)
    (hu : CHECK_TH im i (fin u) = some true) : CHECK_TH im i (fin v) = some true := by
  unfold CHECK_TH at hu ⊢
  cases h0 : im[i]? with
  | none => rw [h0] at hu; simp at hu
  | some a =>
    rw [h0] at hu
    simp only at hu ⊢
    by_cases ha : FVal.le a (fin u) = true
    · rw [if_pos ha] at hu
      rw [if_pos (le_fin_mono a h ha)]
      cases h1 : im[i + 1]? with
      | none => rw [h1] at hu; simp at hu
      | some b =>
        rw [h1] at hu
        simp only at hu ⊢
        by_cases hb : FVal.le b (fin u) = true
        · rw [if_pos hb] at hu
          rw [if_pos (le_fin_mono b h hb)]
          cases h2 : im[i + 2]? with
          | none => rw [h2] at hu; simp at hu
          | some c =>
            rw [h2] at hu
            simp only [Option.some.injEq] at hu ⊢
            exact le_fin_mono c h hu
        · rw [if_neg hb] at hu; simp at hu
    · rw [if_neg ha] at hu; simp at hu

/-- Claim C5, as the code has it. For `par.norm >= 1` and an image in bounds (three channels
when `par.norm == 4`), raising the threshold from `t1` to `t2` lowers
`th_val = 1 - thresh/100` and never increases `count_pix`. -/
theorem count_pix_antitone_in_threshold (L : Libm α) (c n : Nat) (im : List (FVal α))
    (norm t1 t2 : Int) (pv : Bool) (hc : 3 ≤ c) (hlen : im.length = c * n) (hnorm : 1 ≤ norm)
    (h4 : norm = 4 → c = 3) (h12 : t1 ≤ t2) :
    ∃ s1 s2 : Acc α,
      accumulate L c n im { thresh := t1, norm := norm, preview := pv } = some s1 ∧
      accumulate L c n im { thresh := t2, norm := norm, preview := pv } = some s2 ∧
      s2.count_pix ≤ s1.count_pix := by
  obtain ⟨s1, hs1, hc1⟩ := accumulate_count L c n im
    { thresh := t1, norm := norm, preview := pv } hc hlen hnorm h4
  obtain ⟨s2, hs2, hc2⟩ := accumulate_count L c n im
    { thresh := t2, norm := norm, preview := pv } hc hlen hnorm h4
  refine ⟨s1, s2, hs1, hs2, ?_⟩
  rw [hc1, hc2]
  apply Finset.card_le_card
  intro p hp
  simp only [Finset.mem_filter, th_val_eq] at hp ⊢
  refine ⟨hp.1, CHECK_TH_mono im (p * c) ?_ hp.2⟩
  have : (t1 : α) ≤ (t2 : α) := by exact_mod_cast h12
  linarith

end Threshold

/-- Claim C5, counterexample. On the one-pixel image `(0.5, 0.5, 0.5)` with `par.norm == 1`,
`count_pix` is 1 for the threshold 0 and 0 for the threshold 100: raising the threshold
has decreased it. -/
theorem count_pix_decreases_with_threshold :
    (accumulate realLibm 3 1 [fin 0.5, fin 0.5, fin 0.5]
        { thresh := 0, norm := 1, preview := true }).map Acc.count_pix = some 1 ∧
    (accumulate realLibm 3 1 [fin 0.5, fin 0.5, fin 0.5]
        { thresh := 100, norm := 1, preview := true }).map Acc.count_pix = some 0 := by
  constructor
  · simp [accumulate, pixelIters, forLoop, sumPixel, CHECK_TH, th_val_eq]
    norm_num
  · simp [accumulate, pixelIters, forLoop, sumPixel, CHECK_TH, th_val_eq]
    norm_num

/-! ## The normaliser -/

/-- Claim C6. For `par.norm != 0`, `count_pix > 0` and a finite raw estimate that is not the
zero vector, the normalised illuminant is finite, has Euclidean norm 1 and is a positive
multiple of the raw estimate. -/
theorem normalise_unit_norm (norm : Int) (cnt : Nat) (r0 r1 r2 : ℝ) (hn : norm ≠ 0)
    (hc : 0 < cnt) (hr : ¬ (r0 = 0 ∧ r1 = 0 ∧ r2 = 0)) :
    ∃ e0 e1 e2 : ℝ,
      normalise realLibm norm
          { ill_est := { c0 := fin r0, c1 := fin r1, c2 := fin r2 }, count_pix := cnt } =
        { c0 := fin e0, c1 := fin e1, c2 := fin e2 } ∧
      e0 ^ 2 + e1 ^ 2 + e2 ^ 2 = 1 ∧
      ∃ k : ℝ, 0 < k ∧ e0 = k * r0 ∧ e1 = k * r1 ∧ e2 = k * r2 := by
  have hcnt : (0 : ℝ) < (cnt : ℝ) := by exact_mod_cast hc
  have hS : 0 < r0 / cnt * (r0 / cnt) + r1 / cnt * (r1 / cnt) + r2 / cnt * (r2 / cnt) := by
    have h0 := mul_self_nonneg (r0 / cnt)
    have h1 := mul_self_nonneg (r1 / cnt)
    have h2 := mul_self_nonneg (r2 / cnt)
    by_contra hle
    push_neg at hle
    have e0 : r0 / cnt * (r0 / cnt) = 0 := by linarith
    have e1 : r1 / cnt * (r1 / cnt) = 0 := by linarith
    have e2 : r2 / cnt * (r2 / cnt) = 0 := by linarith
    have z0 : r0 = 0 := by
      have := mul_self_eq_zero.mp e0
      rcases div_eq_zero_iff.mp this with h | h
      · exact h
      · exact absurd h hcnt.ne'
    have z1 : r1 = 0 := by
      have := mul_self_eq_zero.mp e1
      rcases div_eq_zero_iff.mp this with h | h
      · exact h
      · exact absurd h hcnt.ne'
    have z2 : r2 = 0 := by
      have := mul_self_eq_zero.mp e2
      rcases div_eq_zero_iff.mp this with h | h
      · exact h
      · exact absurd h hcnt.ne'
    exact hr ⟨z0, z1, z2⟩
  set S : ℝ := r0 / cnt * (r0 / cnt) + r1 / cnt * (r1 / cnt) + r2 / cnt * (r2 / cnt) with hSdef
  have hsq : 0 < Real.sqrt S := Real.sqrt_pos.mpr hS
  have hss : Real.sqrt S * Real.sqrt S = S := Real.mul_self_sqrt hS.le
  refine ⟨r0 / cnt / Real.sqrt S, r1 / cnt / Real.sqrt S, r2 / cnt / Real.sqrt S, ?_, ?_, ?_⟩
  · simp only [normalise, if_pos hn, divide_by_count, divide_by_norm]
    rw [fin_div_fin _ _ hcnt.ne', fin_div_fin _ _ hcnt.ne', fin_div_fin _ _ hcnt.ne']
    simp only [fin_mul_fin, fin_add_fin, fsqrt, ← hSdef, not_lt.mpr hS.le, if_false, realLibm]
    rw [fin_div_fin _ _ hsq.ne', fin_div_fin _ _ hsq.ne', fin_div_fin _ _ hsq.ne']
  · have : (r0 / cnt / Real.sqrt S) ^ 2 + (r1 / cnt / Real.sqrt S) ^ 2 +
        (r2 / cnt / Real.sqrt S) ^ 2 = S / (Real.sqrt S * Real.sqrt S) := by
      rw [hSdef]
      field_simp
      ring
    rw [this, hss, div_self hS.ne']
  · refine ⟨1 / (cnt * Real.sqrt S), by positivity, ?_, ?_, ?_⟩ <;>
    · field_simp

/-! ## The applier on three channels -/

section Applier

variable {α : Type} [LinearOrderedField α]

theorem getD_set (l : List α) (i k : Nat) (v : α) (h : i < l.length) :
    (l.set i v).getD k 0 = if k = i then v else l.getD k 0 := by
  simp only [List.getD_eq_getElem?_getD, List.getElem?_set]
  by_cases hk : k = i
  · subst hk; simp [h]
  · have : ¬ i = k := fun e => hk e.symm
    simp [hk, this]

theorem wr_map_fin {β : Type} (B : List β) (i : Nat) (v : β) (h : i < B.length) :
    wr (B.map fin) i (fin v) = some ((B.set i v).map fin) := by
  unfold wr
  rw [if_pos (by simpa using h), List.map_set]

theorem fin_max (M v : α) : (if FVal.gt (fin v) (fin M) then fin v else fin M) = fin (max M v) := by
  rw [gt_fin_fin]
  rcases lt_or_le M v with h | h
  · simp [h, max_eq_right h.le]
  · simp [not_lt.mpr h, max_eq_left h]

/-- One sample of the gain loop, finite and in bounds, the divisor not zero. -/
theorem gainStep_fin (B : List α) (i : Nat) (a M : α) (ha : a ≠ 0) (h : i < B.length) :
    ((B.map fin)[i]?.bind fun x =>
      (wr (B.map fin) i (x / fin a)).map fun buf =>
        ({ imtmp := buf, immax := if FVal.gt (x / fin a) (fin M) then x / fin a else fin M } :
          Gain α)) =
      some { imtmp := (B.set i (B.getD i 0 / a)).map fin, immax := fin (max M (B.getD i 0 / a)) } := by
  rw [getElem?_map_fin B i h]
  simp only [Option.some_bind]
  rw [fin_div_fin _ _ ha, wr_map_fin B i _ h, fin_max]
  rfl

/-- One pixel of the gain loop on a finite three-channel buffer. -/
theorem gainPixel_fin (B : List α) (A : Nat → α) (hA : ∀ k < 3, A k ≠ 0) (p : Nat) (M : α)
    (h : 3 * p + 2 < B.length) :
    gainPixel 3 { c0 := fin (A 0), c1 := fin (A 1), c2 := fin (A 2) } p
        { imtmp := B.map fin, immax := fin M } =
      some { imtmp := (((B.set (3 * p) (B.getD (3 * p) 0 / A 0)).set (3 * p + 1)
                (B.getD (3 * p + 1) 0 / A 1)).set (3 * p + 2) (B.getD (3 * p + 2) 0 / A 2)).map fin,
             immax := fin (max (max (max M (B.getD (3 * p) 0 / A 0))
                (B.getD (3 * p + 1) 0 / A 1)) (B.getD (3 * p + 2) 0 / A 2)) } := by
  unfold gainPixel
  simp only [mul_comm p 3, forLoop_three, Vec3.get?, Nat.add_zero, Option.some_bind]
  rw [gainStep_fin B (3 * p) (A 0) M (hA 0 (by omega)) (by omega)]
  simp only [Option.some_bind]
  rw [gainStep_fin _ (3 * p + 1) (A 1) _ (hA 1 (by omega)) (by simp; omega)]
  simp only [Option.some_bind]
  rw [gainStep_fin _ (3 * p + 2) (A 2) _ (hA 2 (by omega)) (by simp; omega)]
  rw [getD_set _ _ _ _ (by omega), getD_set _ _ _ _ (by simp; omega),
    getD_set _ _ _ _ (by omega)]
  simp

end Applier
section ApplierLoops

variable {α : Type} [LinearOrderedField α]

/-- The running maximum, from 0, of a sequence: one step. -/
theorem runningMax_all_step (X : Nat → α) (m : Nat) (v : α)
    (h : 0 ≤ v ∧ (∀ i < m, X i ≤ v) ∧ (v = 0 ∨ ∃ i < m, X i = v)) :
    0 ≤ max v (X m) ∧ (∀ i < m + 1, X i ≤ max v (X m)) ∧
      (max v (X m) = 0 ∨ ∃ i < m + 1, X i = max v (X m)) := by
  obtain ⟨h0, hub, hat⟩ := h
  refine ⟨le_max_of_le_left h0, ?_, ?_⟩
  · intro i hi
    rcases Nat.lt_succ_iff_lt_or_eq.mp hi with hlt | heq
    · exact le_max_of_le_left (hub i hlt)
    · subst heq; exact le_max_right _ _
  · rcases le_total v (X m) with hle | hle
    · exact Or.inr ⟨m, Nat.lt_succ_self m, (max_eq_right hle).symm⟩
    · rw [max_eq_left hle]
      rcases hat with hz | ⟨i, hi, hX⟩
      · exact Or.inl hz
      · exact Or.inr ⟨i, Nat.lt_succ_of_lt hi, hX⟩

/-- The gain loop on a finite three-channel buffer: after `j` pixels their samples are
divided, the others untouched, and `immax` is the running maximum of the quotients. -/
theorem gain_loop (xs : List α) (A : Nat → α) (hA : ∀ k < 3, A k ≠ 0) (n : Nat)
    (hlen : xs.length = 3 * n) :
    ∀ j ≤ n, ∃ (B : List α) (M : α),
      forLoop (gainPixel 3 { c0 := fin (A 0), c1 := fin (A 1), c2 := fin (A 2) }) j
          { imtmp := xs.map fin, immax := fin 0 } =
        some { imtmp := B.map fin, immax := fin M } ∧
      B.length = 3 * n ∧
      (∀ i, B.getD i 0 = if i < 3 * j then xs.getD i 0 / A (i % 3) else xs.getD i 0) ∧
      0 ≤ M ∧ (∀ i < 3 * j, xs.getD i 0 / A (i % 3) ≤ M) ∧
      (M = 0 ∨ ∃ i < 3 * j, xs.getD i 0 / A (i % 3) = M) := by
  intro j
  induction j with
  | zero =>
    intro _
    exact ⟨xs, 0, rfl, hlen, by simp, le_refl _, by simp, Or.inl rfl⟩
  | succ j ih =>
    intro hj
    obtain ⟨B, M, hB, hBlen, hBget, hM⟩ := ih (Nat.le_of_succ_le hj)
    have hb : 3 * j + 2 < B.length := by omega
    have e0 : B.getD (3 * j) 0 = xs.getD (3 * j) 0 := by rw [hBget]; simp
    have e1 : B.getD (3 * j + 1) 0 = xs.getD (3 * j + 1) 0 := by rw [hBget]; simp
    have e2 : B.getD (3 * j + 2) 0 = xs.getD (3 * j + 2) 0 := by rw [hBget]; simp
    have m0 : (3 * j) % 3 = 0 := by omega
    have m1 : (3 * j + 1) % 3 = 1 := by omega
    have m2 : (3 * j + 2) % 3 = 2 := by omega
    refine ⟨((B.set (3 * j) (B.getD (3 * j) 0 / A 0)).set (3 * j + 1)
        (B.getD (3 * j + 1) 0 / A 1)).set (3 * j + 2) (B.getD (3 * j + 2) 0 / A 2),
      max (max (max M (B.getD (3 * j) 0 / A 0)) (B.getD (3 * j + 1) 0 / A 1))
        (B.getD (3 * j + 2) 0 / A 2), ?_, ?_, ?_, ?_⟩
    · simp only [forLoop, hB, Option.some_bind]
      exact gainPixel_fin B A hA j M hb
    · simp [hBlen]
    · intro i
      rw [getD_set _ _ _ _ (by simp; omega), getD_set _ _ _ _ (by simp; omega),
        getD_set _ _ _ _ (by omega), hBget i, e0, e1, e2]
      have a0 : 3 * j < 3 * (j + 1) := by omega
      have a1 : 3 * j + 1 < 3 * (j + 1) := by omega
      have a2 : 3 * j + 2 < 3 * (j + 1) := by omega
      by_cases h2 : i = 3 * j + 2
      · subst h2; simp [m2, a2]
      by_cases h1 : i = 3 * j + 1
      · subst h1; simp [m1, a1]
      by_cases h0 : i = 3 * j
      · subst h0; simp [m0, a0]
      have : i < 3 * (j + 1) ↔ i < 3 * j := by omega
      simp [h0, h1, h2, this]
    · rw [e0, e1, e2]
      have s0 := runningMax_all_step (fun i => xs.getD i 0 / A (i % 3)) (3 * j) M hM
      have s1 := runningMax_all_step (fun i => xs.getD i 0 / A (i % 3)) (3 * j + 1) _ s0
      have s2 := runningMax_all_step (fun i => xs.getD i 0 / A (i % 3)) (3 * j + 2) _ s1
      simp only [m0, m1, m2] at s2
      exact s2

/-- One pixel of the "reducing maxima" loop on a finite buffer, `immax` not zero. -/
theorem rescalePixel_fin (c : Nat) (B : List α) (M : α) (hM : M ≠ 0) (p : Nat)
    (h : c * p + 2 < B.length) :
    rescalePixel c (fin M) p (B.map fin) =
      some ((((B.set (c * p) (B.getD (c * p) 0 / M)).set (c * p + 1)
        (B.getD (c * p + 1) 0 / M)).set (c * p + 2) (B.getD (c * p + 2) 0 / M)).map fin) := by
  unfold rescalePixel
  simp only [mul_comm p c]
  rw [getElem?_map_fin B _ (by omega)]
  simp only [Option.some_bind]
  rw [fin_div_fin _ _ hM, wr_map_fin _ _ _ (by omega)]
  simp only [Option.some_bind]
  rw [getElem?_map_fin _ _ (by simp; omega)]
  simp only [Option.some_bind]
  rw [fin_div_fin _ _ hM, wr_map_fin _ _ _ (by simp; omega)]
  simp only [Option.some_bind]
  rw [getElem?_map_fin _ _ (by simp; omega)]
  simp only [Option.some_bind]
  rw [fin_div_fin _ _ hM, wr_map_fin _ _ _ (by simp; omega)]
  rw [getD_set _ _ _ _ (by omega), getD_set _ _ _ _ (by simp; omega),
    getD_set _ _ _ _ (by omega)]
  simp

/-- The "reducing maxima" loop on a finite three-channel buffer: after `j` pixels their
samples are divided by `immax`, the others untouched. -/
theorem rescale_loop (B : List α) (M : α) (hM : M ≠ 0) (n : Nat) (hlen : B.length = 3 * n) :
    ∀ j ≤ n, ∃ Y : List α,
      forLoop (rescalePixel 3 (fin M)) j (B.map fin) = some (Y.map fin) ∧
      Y.length = 3 * n ∧
      (∀ i, Y.getD i 0 = if i < 3 * j then B.getD i 0 / M else B.getD i 0) := by
  intro j
  induction j with
  | zero =>
    intro _
    exact ⟨B, rfl, hlen, by simp⟩
  | succ j ih =>
    intro hj
    obtain ⟨Y, hY, hYlen, hYget⟩ := ih (Nat.le_of_succ_le hj)
    have hb : 3 * j + 2 < Y.length := by omega
    have e0 : Y.getD (3 * j) 0 = B.getD (3 * j) 0 := by rw [hYget]; simp
    have e1 : Y.getD (3 * j + 1) 0 = B.getD (3 * j + 1) 0 := by rw [hYget]; simp
    have e2 : Y.getD (3 * j + 2) 0 = B.getD (3 * j + 2) 0 := by rw [hYget]; simp
    refine ⟨((Y.set (3 * j) (Y.getD (3 * j) 0 / M)).set (3 * j + 1)
        (Y.getD (3 * j + 1) 0 / M)).set (3 * j + 2) (Y.getD (3 * j + 2) 0 / M), ?_, ?_, ?_⟩
    · simp only [forLoop, hY, Option.some_bind]
      exact rescalePixel_fin 3 Y M hM j hb
    · simp [hYlen]
    · intro i
      rw [getD_set _ _ _ _ (by simp; omega), getD_set _ _ _ _ (by simp; omega),
        getD_set _ _ _ _ (by omega), hYget i, e0, e1, e2]
      have a0 : 3 * j < 3 * (j + 1) := by omega
      have a1 : 3 * j + 1 < 3 * (j + 1) := by omega
      have a2 : 3 * j + 2 < 3 * (j + 1) := by omega
      by_cases h2 : i = 3 * j + 2
      · subst h2; simp [a2]
      by_cases h1 : i = 3 * j + 1
      · subst h1; simp [a1]
      by_cases h0 : i = 3 * j
      · subst h0; simp [a0]
      have : i < 3 * (j + 1) ↔ i < 3 * j := by omega
      simp [h0, h1, h2, this]

end ApplierLoops
/-- The applier on a three-channel region of non-negative samples with a strictly positive
illuminant: the gain loop, its maximum and the rescale. -/
theorem apply_illuminant_three {α : Type} [LinearOrderedField α] (xs : List α)
    (A : Nat → α) (n : Nat) (hlen : xs.length = 3 * n) (hnn : ∀ x ∈ xs, 0 ≤ x)
    (hA : ∀ k < 3, 0 < A k) :
    ∃ (M : α) (ys : List α),
      (applyGain 3 n (xs.map fin) { c0 := fin (A 0), c1 := fin (A 1), c2 := fin (A 2) }).map
          Gain.immax = some (fin M) ∧
      apply_illuminant 3 n (xs.map fin) { c0 := fin (A 0), c1 := fin (A 1), c2 := fin (A 2) } =
        some (ys.map fin) ∧
      ys.length = 3 * n ∧
      (∀ p < n, ∀ k < 3, xs.getD (3 * p + k) 0 / A k ≤ M) ∧
      (0 < n → ∃ p < n, ∃ k < 3, xs.getD (3 * p + k) 0 / A k = M) ∧
      (∀ p < n, ∀ k < 3, ys.getD (3 * p + k) 0 =
        if 1 < M then xs.getD (3 * p + k) 0 / A k / M else xs.getD (3 * p + k) 0 / A k) ∧
      (∀ y ∈ ys, 0 ≤ y ∧ y ≤ 1) := by
  obtain ⟨B, M, hB, hBlen, hBget, hM0, hMub, hMat⟩ :=
    gain_loop xs A (fun k hk => (hA k hk).ne') n hlen n (le_refl n)
  have hq0 : ∀ i, 0 ≤ xs.getD i 0 / A (i % 3) := by
    intro i
    have hx : 0 ≤ xs.getD i 0 := by
      by_cases hi : i < xs.length
      · rw [List.getD_eq_getElem _ _ hi]; exact hnn _ (List.getElem_mem hi)
      · rw [List.getD_eq_default _ _ (not_lt.mp hi)]
    exact div_nonneg hx (hA _ (Nat.mod_lt _ (by decide))).le
  have hmod : ∀ p k, k < 3 → (3 * p + k) % 3 = k := by intro p k hk; omega
  have hgain : applyGain 3 n (xs.map fin) { c0 := fin (A 0), c1 := fin (A 1), c2 := fin (A 2) } =
      some { imtmp := B.map fin, immax := fin M } := by
    unfold applyGain
    simpa [pixelIters] using hB
  -- the buffer after the optional rescale
  have hres : ∃ ys : List α,
      apply_illuminant 3 n (xs.map fin) { c0 := fin (A 0), c1 := fin (A 1), c2 := fin (A 2) } =
        some (ys.map fin) ∧ ys.length = 3 * n ∧
      ∀ i < 3 * n, ys.getD i 0 =
        if 1 < M then xs.getD i 0 / A (i % 3) / M else xs.getD i 0 / A (i % 3) := by
    unfold apply_illuminant
    rw [hgain]
    simp only [Option.some_bind, gt_fin_fin, decide_eq_true_eq]
    by_cases h1 : 1 < M
    · have hMne : M ≠ 0 := by linarith
      obtain ⟨Y, hY, hYlen, hYget⟩ := rescale_loop B M hMne n hBlen n (le_refl n)
      refine ⟨Y, ?_, hYlen, ?_⟩
      · rw [if_pos h1]
        simpa [pixelIters] using hY
      · intro i hi
        rw [hYget i, if_pos hi, hBget i, if_pos hi, if_pos h1]
    · refine ⟨B, by rw [if_neg h1], hBlen, ?_⟩
      intro i hi
      rw [hBget i, if_pos hi, if_neg h1]
  obtain ⟨ys, hys, hyslen, hysget⟩ := hres
  refine ⟨M, ys, by rw [hgain]; rfl, hys, hyslen, ?_, ?_, ?_, ?_⟩
  · intro p hp k hk
    have := hMub (3 * p + k) (by omega)
    rwa [hmod p k hk] at this
  · intro hn
    rcases hMat with hz | ⟨i, hi, hqi⟩
    · refine ⟨0, hn, 0, by decide, ?_⟩
      have h1 := hMub 0 (by omega)
      have h2 := hq0 0
      simp only [Nat.zero_mod] at h1 h2
      simp only [Nat.mul_zero, Nat.add_zero]
      rw [hz] at h1 ⊢
      exact le_antisymm h1 h2
    · refine ⟨i / 3, by omega, i % 3, Nat.mod_lt _ (by decide), ?_⟩
      have : 3 * (i / 3) + i % 3 = i := Nat.div_add_mod i 3
      rw [this]
      exact hqi
  · intro p hp k hk
    have := hysget (3 * p + k) (by omega)
    rwa [hmod p k hk] at this
  · intro y hy
    obtain ⟨i, hi, rfl⟩ := List.mem_iff_getElem.mp hy
    have hget : ys[i] = ys.getD i 0 := (List.getD_eq_getElem _ _ hi).symm
    rw [hget, hysget i (by omega)]
    have hqM := hMub i (by omega)
    have hq := hq0 i
    by_cases h1 : 1 < M
    · rw [if_pos h1]
      have hMpos : 0 < M := by linarith
      exact ⟨div_nonneg hq hMpos.le, (div_le_one hMpos).mpr hqM⟩
    · rw [if_neg h1]
      exact ⟨hq, le_trans hqM (not_lt.mp h1)⟩

/-- Claim C7. The applier on a three-channel region of non-negative samples with a strictly
positive illuminant `(A 0, A 1, A 2)`: `immax` is the maximum `M` of the quotients `x / A k`
over the region, sample `k` of every pixel becomes `(x / A k) / M` when `M > 1` and
`x / A k` otherwise, and every sample of the result lies in `[0,1]`. -/
theorem apply_illuminant_rescales {α : Type} [LinearOrderedField α] (xs : List α)
    (A : Nat → α) (n : Nat) (hlen : xs.length = 3 * n) (hnn : ∀ x ∈ xs, 0 ≤ x)
    (hA : ∀ k < 3, 0 < A k) :
    ∃ (M : α) (ys : List α),
      (applyGain 3 n (xs.map fin) { c0 := fin (A 0), c1 := fin (A 1), c2 := fin (A 2) }).map
          Gain.immax = some (fin M) ∧
      apply_illuminant 3 n (xs.map fin) { c0 := fin (A 0), c1 := fin (A 1), c2 := fin (A 2) } =
        some (ys.map fin) ∧
      ys.length = 3 * n ∧
      (∀ p < n, ∀ k < 3, xs.getD (3 * p + k) 0 / A k ≤ M) ∧
      (0 < n → ∃ p < n, ∃ k < 3, xs.getD (3 * p + k) 0 / A k = M) ∧
      (∀ p < n, ∀ k < 3, ys.getD (3 * p + k) 0 =
        if 1 < M then xs.getD (3 * p + k) 0 / A k / M else xs.getD (3 * p + k) 0 / A k) ∧
      (∀ y ∈ ys, 0 ≤ y ∧ y ≤ 1) :=
  apply_illuminant_three xs A n hlen hnn hA

/-! ## Estimation is global -/

/-- Claim C8. The illuminant `shades_of_grey` estimates does not depend on the preview: with
any preview rectangle, or none, it is the estimate over the decoded pixels inside the mask
bounds of the drawable, a function of the drawable and the parameters only. -/
theorem illuminant_independent_of_preview {α : Type} [LinearOrderedField α] (L : Libm α)
    (d : Drawable) (par : Shades_param) (pv : Option Preview) :
    (shades_of_grey_estimate L d par pv).map Estimated.app_ill =
        (shades_of_grey_estimate L d par none).map Estimated.app_ill ∧
      (shades_of_grey_estimate L d par pv).map Estimated.app_ill =
        (sRGB2linearLU L (get_rect d d.x1 d.y1 (d.x2 - d.x1).toNat (d.y2 - d.y1).toNat)
          ((d.x2 - d.x1).toNat * (d.y2 - d.y1).toNat * d.bpp)).bind fun imtmp =>
            estimate_illuminant L d.bpp ((d.x2 - d.x1).toNat * (d.y2 - d.y1).toNat) imtmp par := by
  have key : ∀ q : Option Preview, (shades_of_grey_estimate L d par q).map Estimated.app_ill =
      (sRGB2linearLU L (get_rect d d.x1 d.y1 (d.x2 - d.x1).toNat (d.y2 - d.y1).toNat)
        ((d.x2 - d.x1).toNat * (d.y2 - d.y1).toNat * d.bpp)).bind fun imtmp =>
          estimate_illuminant L d.bpp ((d.x2 - d.x1).toNat * (d.y2 - d.y1).toNat) imtmp par := by
    intro q
    unfold shades_of_grey_estimate
    dsimp only
    cases sRGB2linearLU L (get_rect d d.x1 d.y1 (d.x2 - d.x1).toNat (d.y2 - d.y1).toNat)
        ((d.x2 - d.x1).toNat * (d.y2 - d.y1).toNat * d.bpp) with
    | none => rfl
    | some imtmp =>
      simp only [Option.some_bind, Option.map_map]
      cases estimate_illuminant L d.bpp ((d.x2 - d.x1).toNat * (d.y2 - d.y1).toNat) imtmp par with
      | none => rfl
      | some v => rfl
  exact ⟨(key pv).trans (key none).symm, key pv⟩

/-! ## No eligible pixel -/

section Degenerate

variable {α : Type} [LinearOrderedField α]

theorem forLoop_fixed {σ : Type} (body : Nat → σ → Option σ) (s : σ) :
    ∀ j, (∀ p < j, body p s = some s) → forLoop body j s = some s := by
  intro j
  induction j with
  | zero => intro _; rfl
  | succ j ih =>
    intro h
    simp only [forLoop, ih (fun p hp => h p (Nat.lt_succ_of_lt hp)), Option.some_bind]
    exact h j (Nat.lt_succ_self j)

theorem sumPixel_skip (F : FVal α → FVal α) (c : Nat) (im : List (FVal α)) (th : FVal α)
    (p : Nat) (s : Acc α) (h : CHECK_TH im (p * c) th = some false) :
    sumPixel F c im th p s = some s := by
  unfold sumPixel
  dsimp only
  rw [h]
  rfl

theorem norm4Pixel_skip (c : Nat) (im : List (FVal α)) (th : FVal α)
    (p : Nat) (s : Acc α) (h : CHECK_TH im (p * c) th = some false) :
    norm4Pixel c im th p s = some s := by
  unfold norm4Pixel
  dsimp only
  rw [h]
  rfl

end Degenerate

/-- For `par.norm >= 1` and an image none of whose pixels
passes `CHECK_TH`, the accumulator ends with `ill_est = 0` and `count_pix = 0`, the
division by `count_pix` is not guarded, and the three elements of the illuminant handed to
the applier are NaN (the result of `0/0`). -/
theorem accumulate_no_eligible (c n : Nat) (im : List (FVal ℝ)) (par : Shades_param)
    (hc : c ≠ 0) (hnorm : 1 ≤ par.norm)
    (hnone : ∀ p < n, CHECK_TH im (p * c) (th_val par.thresh) = some false) :
    accumulate realLibm c n im par =
        some { ill_est := { c0 := fin 0, c1 := fin 0, c2 := fin 0 }, count_pix := 0 } ∧
      estimate_illuminant realLibm c n im par = some { c0 := nan, c1 := nan, c2 := nan } := by
  have h0 : par.norm ≠ 0 := by omega
  have hit : pixelIters c n = n := by simp [pixelIters, hc]
  have hsum : ∀ F : FVal ℝ → FVal ℝ,
      forLoop (sumPixel F c im (th_val par.thresh)) n
          { ill_est := { c0 := fin 0, c1 := fin 0, c2 := fin 0 }, count_pix := 0 } =
        some { ill_est := { c0 := fin 0, c1 := fin 0, c2 := fin 0 }, count_pix := 0 } :=
    fun F => forLoop_fixed _ _ n (fun p hp => sumPixel_skip F c im _ p _ (hnone p hp))
  have h4 : forLoop (norm4Pixel c im (th_val par.thresh)) n
        { ill_est := { c0 := fin 0, c1 := fin 0, c2 := fin 0 }, count_pix := 0 } =
      some { ill_est := { c0 := fin 0, c1 := fin 0, c2 := fin 0 }, count_pix := 0 } :=
    forLoop_fixed _ _ n (fun p hp => norm4Pixel_skip c im _ p _ (hnone p hp))
  have hpow : ∀ y : ℝ, y ≠ 0 → fpow realLibm (fin 0) y = fin 0 := by
    intro y hy
    simp [fpow, realLibm, Real.zero_rpow hy]
  have hacc : accumulate realLibm c n im par =
      some { ill_est := { c0 := fin 0, c1 := fin 0, c2 := fin 0 }, count_pix := 0 } := by
    unfold accumulate
    dsimp only
    rw [hit, if_neg h0]
    by_cases h1 : par.norm = 1
    · rw [if_pos h1]; exact hsum _
    rw [if_neg h1]
    by_cases h2 : par.norm = 2
    · rw [if_pos h2, hsum]
      simp [rootAll, fsqrt, realLibm]
    rw [if_neg h2]
    by_cases h3 : par.norm = 3
    · rw [if_pos h3, hsum]
      simp [rootAll, fcbrt, realLibm]
    rw [if_neg h3]
    by_cases h4' : par.norm = 4
    · rw [if_pos h4', h4]
      simp only [Option.map_some', rootAll, hpow 0.25 (by norm_num)]
    · have h5 : 4 < par.norm := by omega
      have hroot : (1 : ℝ) / (par.norm : ℝ) ≠ 0 := by
        have : (0 : ℝ) < (par.norm : ℝ) := by exact_mod_cast (by omega : (0 : Int) < par.norm)
        positivity
      rw [if_neg h4', if_pos h5, hsum]
      simp only [Option.map_some', rootAll, hpow _ hroot]
  refine ⟨hacc, ?_⟩
  rw [estimate_illuminant, hacc]
  simp only [Option.map_some', normalise, if_pos h0, divide_by_count, divide_by_norm]
  have hdiv : (fin (0 : ℝ) / fin (((0 : ℕ) : ℝ)) : FVal ℝ) = nan := by
    show FVal.div _ _ = _
    simp [FVal.div]
  rw [hdiv]
  rfl

/-- Claim C9, as the code has it. For `par.norm >= 1` and an image none of whose pixels
passes `CHECK_TH`, the accumulator ends with `ill_est = 0` and `count_pix = 0`, the
division by `count_pix` is not guarded, and the three elements of the illuminant handed to
the applier are NaN (the result of `0/0`). -/
theorem no_eligible_pixel_gives_nan (c n : Nat) (im : List (FVal ℝ)) (par : Shades_param)
    (hc : c ≠ 0) (hnorm : 1 ≤ par.norm)
    (hnone : ∀ p < n, CHECK_TH im (p * c) (th_val par.thresh) = some false) :
    accumulate realLibm c n im par =
        some { ill_est := { c0 := fin 0, c1 := fin 0, c2 := fin 0 }, count_pix := 0 } ∧
      estimate_illuminant realLibm c n im par = some { c0 := nan, c1 := nan, c2 := nan } :=
  accumulate_no_eligible c n im par hc hnorm hnone

/-- Claim C9, counterexample. On the one-pixel linear image `(1, 1, 1)` with threshold 5
and `par.norm == 1` no pixel is eligible, and the illuminant handed to the applier is
`(NaN, NaN, NaN)`, not the neutral `(1, 1, 1)`. -/
theorem no_eligible_pixel_not_neutral :
    estimate_illuminant realLibm 3 1 [fin 1, fin 1, fin 1]
        { thresh := 5, norm := 1, preview := true } = some { c0 := nan, c1 := nan, c2 := nan } ∧
    estimate_illuminant realLibm 3 1 [fin 1, fin 1, fin 1]
        { thresh := 5, norm := 1, preview := true } ≠
      some { c0 := fin 1, c1 := fin 1, c2 := fin 1 } := by
  have h : estimate_illuminant realLibm 3 1 [fin 1, fin 1, fin 1]
      { thresh := 5, norm := 1, preview := true } = some { c0 := nan, c1 := nan, c2 := nan } := by
    refine (accumulate_no_eligible 3 1 [fin 1, fin 1, fin 1]
      { thresh := 5, norm := 1, preview := true } (by decide) (by decide) ?_).2
    intro p hp
    have hp0 : p = 0 := by omega
    subst hp0
    simp [CHECK_TH, th_val_eq]
  refine ⟨h, ?_⟩
  rw [h]
  intro hcontra
  simp at hcontra

/-! ## More than three channels -/

section OutOfBounds

variable {α : Type} [LinearOrderedField α]

theorem forLoop_none {σ : Type} (body : Nat → σ → Option σ) (k : Nat)
    (hk : ∀ s, body k s = none) : ∀ c, k < c → ∀ s, forLoop body c s = none := by
  intro c
  induction c with
  | zero => intro h; exact absurd h (Nat.not_lt_zero k)
  | succ c ih =>
    intro h s
    simp only [forLoop]
    rcases Nat.lt_succ_iff_lt_or_eq.mp h with hlt | heq
    · rw [ih hlt s]; rfl
    · subst heq
      cases forLoop body k s with
      | none => rfl
      | some s' => exact hk s'

/-- With more than three channels the gain loop reads `app_ill[3]`, outside the array. -/
theorem gainPixel_out_of_bounds (c : Nat) (hc : 3 < c) (v : Vec3 (FVal α)) (p : Nat)
    (g : Gain α) : gainPixel c v p g = none := by
  unfold gainPixel
  dsimp only
  apply forLoop_none _ 3 _ c hc
  intro s
  cases s.imtmp[p * c + 3]? with
  | none => rfl
  | some x => rfl

theorem apply_illuminant_out_of_bounds (c n : Nat) (hc : 3 < c) (hn : 0 < n)
    (im : List (FVal α)) (v : Vec3 (FVal α)) : apply_illuminant c n im v = none := by
  have hgain : applyGain c n im v = none := by
    unfold applyGain
    have hit : pixelIters c n = (n - 1) + 1 := by
      have : c ≠ 0 := by omega
      simp only [pixelIters, this, if_false]
      omega
    rw [hit]
    simp only [forLoop]
    cases forLoop (gainPixel c v) (n - 1) { imtmp := im, immax := fin 0 } with
    | none => rfl
    | some g => exact gainPixel_out_of_bounds c hc v _ g
  unfold apply_illuminant
  rw [hgain]
  rfl

/-- On a drawable with more than three bytes per pixel and at least one pixel inside the
mask bounds, `shades_of_grey` without a preview reads `app_ill[3]`: its behaviour is
undefined. -/
theorem shades_of_grey_out_of_bounds [FloorRing α] (L : Libm α) (d : Drawable)
    (par : Shades_param) (hc : 3 < d.bpp)
    (hn : 0 < (d.x2 - d.x1).toNat * (d.y2 - d.y1).toNat) :
    shades_of_grey L d par none = none := by
  unfold shades_of_grey
  cases he : shades_of_grey_estimate L d par none with
  | none => rfl
  | some e =>
    have hch : e.channels = d.bpp ∧ e.npixels = (d.x2 - d.x1).toNat * (d.y2 - d.y1).toNat := by
      unfold shades_of_grey_estimate at he
      dsimp only at he
      cases h1 : sRGB2linearLU L (get_rect d d.x1 d.y1 (d.x2 - d.x1).toNat (d.y2 - d.y1).toNat)
          ((d.x2 - d.x1).toNat * (d.y2 - d.y1).toNat * d.bpp) with
      | none => rw [h1] at he; simp at he
      | some imtmp =>
        rw [h1] at he
        simp only [Option.some_bind] at he
        cases h2 : estimate_illuminant L d.bpp ((d.x2 - d.x1).toNat * (d.y2 - d.y1).toNat)
            imtmp par with
        | none => rw [h2] at he; simp at he
        | some v =>
          rw [h2] at he
          simp only [Option.map_some', Option.some.injEq] at he
          subst he
          exact ⟨rfl, rfl⟩
    simp only [Option.some_bind]
    rw [apply_illuminant_out_of_bounds e.channels e.npixels (by rw [hch.1]; exact hc)
      (by rw [hch.2]; exact hn)]
    rfl

end OutOfBounds

/-! ## The all-black image on three channels -/

section AllBlack

variable {α : Type} [LinearOrderedField α]

/-- The loop of `powN` on a finite value, the fuel sufficient: exact exponentiation. -/
theorem powNLoop_fin : ∀ (fuel : Nat) (x y : α) (p : Nat), p < 2 ^ fuel →
    powNLoop fuel (fin x) (fin y) p = fin (y * x ^ p) := by
  intro fuel
  induction fuel with
  | zero =>
    intro x y p hp
    have : p = 0 := by simpa using hp
    subst this
    simp [powNLoop]
  | succ fuel ih =>
    intro x y p hp
    unfold powNLoop
    by_cases h0 : 0 < p
    · rw [if_pos h0]
      have hhalf : p / 2 < 2 ^ fuel := by
        rw [Nat.pow_succ] at hp
        omega
      have hdecomp : p = 2 * (p / 2) + p % 2 := (Nat.div_add_mod p 2).symm
      by_cases h1 : p % 2 = 1
      · rw [if_pos h1, fin_mul_fin, fin_mul_fin, ih _ _ _ hhalf]
        congr 1
        conv_rhs => rw [hdecomp, h1, pow_succ, pow_mul]
        ring
      · have h1' : p % 2 = 0 := by omega
        rw [if_neg h1, fin_mul_fin, ih _ _ _ hhalf]
        congr 1
        conv_rhs => rw [hdecomp, h1', Nat.add_zero, pow_mul]
        ring
    · have : p = 0 := by omega
      subst this
      simp

theorem powN_fin (x : α) (p : Nat) : powN (fin x) p = fin (x ^ (p % 2 ^ 32)) := by
  unfold powN
  rw [powNLoop_fin 32 x 1 _ (Nat.mod_lt _ (by decide)), one_mul]

end AllBlack
section AllBlackPipeline

variable {α : Type} [LinearOrderedField α]

theorem lookup_zero (L : Libm α) : lookup L 0 = fin 0 := by
  unfold lookup
  have h1 : ((0 : ℕ) : α) / 255 ≤ 0.03928 := by norm_num
  simp only [le_fin_fin, h1, decide_True, if_true]
  rw [fin_div_fin _ _ (by norm_num)]
  simp

theorem linear2sRGB1_zero_or_nan (L : Libm α) (x : FVal α) (hx : x = fin 0 ∨ x = nan) :
    linear2sRGB1 L x = fin 0 := by
  rcases hx with rfl | rfl
  · unfold linear2sRGB1
    have h1 : (0 : α) ≤ 0.00304 := by norm_num
    simp [h1]
  · unfold linear2sRGB1
    have h1 : FVal.le (nan : FVal α) (fin 0.00304) = false := rfl
    have h2 : (nan * fin 1.055 : FVal α) = nan := rfl
    have h3 : (nan - fin 0.055 : FVal α) = nan := rfl
    simp only [h1, h2, fpow, h3]
    simp [FVal.gt, FVal.lt]

theorem float2im1_zero [FloorRing α] : float2im1 (fin (0 : α)) = some 0 := by
  obtain ⟨n, _, _, hb, hn⟩ := float2im1_fin (0 : α) (le_refl _) zero_le_one
  have hn0 : n = 0 := by
    have : ⌊(0 : α) * 255 + 1 / 2⌋ = 0 := by
      rw [Int.floor_eq_iff]
      constructor <;> norm_num
    rw [this] at hn
    exact_mod_cast hn
  subst hn0
  cases h : float2im1 (fin (0 : α)) with
  | none => rw [h] at hb; simp at hb
  | some b =>
    rw [h] at hb
    simp only [Option.map_some', Option.some.injEq] at hb
    congr 1
    exact Fin.ext hb

/-- The host call on a drawable whose bytes are all 0. -/
theorem get_rect_zero (d : Drawable) (hz : ∀ x y k, d.pixel x y k = 0) (x y : Int) (w h : Nat) :
    get_rect d x y w h = List.replicate (w * h * d.bpp) 0 := by
  unfold get_rect
  simp only [hz]
  rw [List.eq_replicate_iff]
  constructor
  · simp
  · intro b hb
    simp only [List.mem_map] at hb
    obtain ⟨_, _, rfl⟩ := hb
    rfl

/-- The decoding of a buffer of zero bytes. -/
theorem sRGB2linearLU_zero (L : Libm α) (m : Nat) :
    sRGB2linearLU L (List.replicate m (0 : Byte)) m =
      some ((List.replicate m (0 : α)).map fin) := by
  unfold sRGB2linearLU
  rw [if_pos (by simp)]
  congr 1
  rw [List.take_replicate, Nat.min_self, List.map_replicate, List.map_replicate]
  congr 1
  exact lookup_zero L

end AllBlackPipeline
/-- With more than three channels the `par.norm == 4` loop writes `ill_est[3]`, outside
the array, at the first eligible pixel. -/
theorem norm4Pixel_out_of_bounds {α : Type} [LinearOrderedField α] (c : Nat) (hc : 3 < c)
    (im : List (FVal α)) (th : FVal α) (p : Nat) (s : Acc α)
    (h : CHECK_TH im (p * c) th = some true) : norm4Pixel c im th p s = none := by
  unfold norm4Pixel
  dsimp only
  rw [h]
  simp only [Option.some_bind, if_true]
  have hloop : forLoop (fun k (e : Vec3 (FVal α)) =>
      (im[p * c + k]?).bind fun x =>
        (e.get? k).bind fun cur => e.set? k (cur + POW2 (POW2 x))) c s.ill_est = none := by
    apply forLoop_none _ 3 _ c hc
    intro e
    cases im[p * c + 3]? with
    | none => rfl
    | some x => rfl
  rw [hloop]
  rfl

/-- On a drawable of one RGBA pixel (four bytes per pixel), every byte 0, with threshold 5,
norm 4 and no preview, the accumulator of `shades_of_grey` writes `ill_est[3]`, outside the
array (and the gain loop would read `app_ill[3]`): the embedding gives the estimation stage
and the whole function no result there.  The accesses themselves are the subject of C19. -/
theorem all_black_rgba_undefined :
    shades_of_grey_estimate realLibm
        { bpp := 4, x1 := 0, y1 := 0, x2 := 1, y2 := 1, pixel := fun _ _ _ => 0 }
        { thresh := 5, norm := 4, preview := true } none = none ∧
    shades_of_grey realLibm
        { bpp := 4, x1 := 0, y1 := 0, x2 := 1, y2 := 1, pixel := fun _ _ _ => 0 }
        { thresh := 5, norm := 4, preview := true } none = none := by
  have hest : shades_of_grey_estimate realLibm
      { bpp := 4, x1 := 0, y1 := 0, x2 := 1, y2 := 1, pixel := fun _ _ _ => 0 }
      { thresh := 5, norm := 4, preview := true } none = none := by
    unfold shades_of_grey_estimate
    dsimp only
    rw [get_rect_zero _ (fun _ _ _ => rfl)]
    have hlen : (1 - 0 : Int).toNat * (1 - 0 : Int).toNat * 4 = 4 := by decide
    rw [hlen, sRGB2linearLU_zero]
    simp only [Option.some_bind, Option.map_eq_none', estimate_illuminant]
    have h1 : (1 - 0 : Int).toNat * (1 - 0 : Int).toNat = 1 := by decide
    rw [h1]
    unfold accumulate
    dsimp only
    have hit : pixelIters 4 1 = 1 := by decide
    rw [hit, if_neg (by decide), if_neg (by decide), if_neg (by decide), if_neg (by decide),
      if_pos rfl]
    simp only [forLoop, Option.some_bind, Option.map_eq_none']
    apply norm4Pixel_out_of_bounds 4 (by decide)
    simp [CHECK_TH, th_val_eq]
    norm_num
  refine ⟨hest, ?_⟩
  unfold shades_of_grey
  rw [hest]
  rfl

/-! ## Instances on concrete inputs -/

/-- C3 at the two-pixel image `(0.8, 0.8, 0.8), (0.2, 0.4, 0.6)` with threshold 0. -/
theorem maxRgb_illuminant_is_channel_max_witness :
    ∃ m : Nat → ℝ,
      estimate_illuminant realLibm 3 2 (([0.8, 0.8, 0.8, 0.2, 0.4, 0.6] : List ℝ).map fin)
          { thresh := 0, norm := 0, preview := true } =
        some { c0 := fin (m 0), c1 := fin (m 1), c2 := fin (m 2) } ∧
      ∀ k < 3,
        (∃ p < 2, Eligible ([0.8, 0.8, 0.8, 0.2, 0.4, 0.6] : List ℝ) (3 * p)
            (1 - ((0 : Int) : ℝ) / 100) ∧
          ([0.8, 0.8, 0.8, 0.2, 0.4, 0.6] : List ℝ).getD (3 * p + k) 0 = m k) ∧
        (∀ p < 2, Eligible ([0.8, 0.8, 0.8, 0.2, 0.4, 0.6] : List ℝ) (3 * p)
            (1 - ((0 : Int) : ℝ) / 100) →
          ([0.8, 0.8, 0.8, 0.2, 0.4, 0.6] : List ℝ).getD (3 * p + k) 0 ≤ m k) :=
  maxRgb_illuminant_is_channel_max realLibm [0.8, 0.8, 0.8, 0.2, 0.4, 0.6] 2 0 true rfl
    (by
      intro x hx
      simp only [List.mem_cons, List.mem_singleton, List.not_mem_nil, or_false] at hx
      rcases hx with h | h | h | h | h | h <;> rw [h] <;> norm_num)
    ⟨0, by decide, by simp only [Eligible, List.getD_cons_zero, List.getD_cons_succ]; norm_num⟩

/-- C4 at the two-pixel image `(0.8, 0.8, 0.8), (0.2, 0.4, 0.6)` with threshold 0. -/
theorem greyWorld_estimate_is_mean_witness :
    ∃ s : Acc ℝ,
      accumulate realLibm 3 2 (([0.8, 0.8, 0.8, 0.2, 0.4, 0.6] : List ℝ).map fin)
          { thresh := 0, norm := 1, preview := true } = some s ∧
      s.count_pix =
        ((Finset.range 2).filter (fun p => Eligible ([0.8, 0.8, 0.8, 0.2, 0.4, 0.6] : List ℝ)
          (3 * p) (1 - ((0 : Int) : ℝ) / 100))).card ∧
      0 < s.count_pix ∧
      divide_by_count s =
        { c0 := fin ((∑ p ∈ (Finset.range 2).filter
                (fun p => Eligible ([0.8, 0.8, 0.8, 0.2, 0.4, 0.6] : List ℝ) (3 * p)
                  (1 - ((0 : Int) : ℝ) / 100)),
                  ([0.8, 0.8, 0.8, 0.2, 0.4, 0.6] : List ℝ).getD (3 * p + 0) 0) /
                    (s.count_pix : ℝ)),
          c1 := fin ((∑ p ∈ (Finset.range 2).filter
                (fun p => Eligible ([0.8, 0.8, 0.8, 0.2, 0.4, 0.6] : List ℝ) (3 * p)
                  (1 - ((0 : Int) : ℝ) / 100)),
                  ([0.8, 0.8, 0.8, 0.2, 0.4, 0.6] : List ℝ).getD (3 * p + 1) 0) /
                    (s.count_pix : ℝ)),
          c2 := fin ((∑ p ∈ (Finset.range 2).filter
                (fun p => Eligible ([0.8, 0.8, 0.8, 0.2, 0.4, 0.6] : List ℝ) (3 * p)
                  (1 - ((0 : Int) : ℝ) / 100)),
                  ([0.8, 0.8, 0.8, 0.2, 0.4, 0.6] : List ℝ).getD (3 * p + 2) 0) /
                    (s.count_pix : ℝ)) } :=
  greyWorld_estimate_is_mean realLibm 3 2 [0.8, 0.8, 0.8, 0.2, 0.4, 0.6] 0 true (le_refl 3) rfl
    ⟨0, by decide, by simp only [Eligible, List.getD_cons_zero, List.getD_cons_succ]; norm_num⟩

/-- C5 at the one-pixel image `(0.5, 0.5, 0.5)`, norm 1, thresholds 0 and 100. -/
theorem count_pix_antitone_in_threshold_witness :
    ∃ s1 s2 : Acc ℝ,
      accumulate realLibm 3 1 [fin 0.5, fin 0.5, fin 0.5]
          { thresh := 0, norm := 1, preview := true } = some s1 ∧
      accumulate realLibm 3 1 [fin 0.5, fin 0.5, fin 0.5]
          { thresh := 100, norm := 1, preview := true } = some s2 ∧
      s2.count_pix ≤ s1.count_pix :=
  count_pix_antitone_in_threshold realLibm 3 1 [fin 0.5, fin 0.5, fin 0.5] 1 0 100 true
    (le_refl 3) rfl (le_refl 1) (by decide) (by decide)

/-- C6 at the raw estimate `(1, 2, 2)` with `count_pix = 1` and norm 1. -/
theorem normalise_unit_norm_witness :
    ∃ e0 e1 e2 : ℝ,
      normalise realLibm 1
          { ill_est := { c0 := fin 1, c1 := fin 2, c2 := fin 2 }, count_pix := 1 } =
        { c0 := fin e0, c1 := fin e1, c2 := fin e2 } ∧
      e0 ^ 2 + e1 ^ 2 + e2 ^ 2 = 1 ∧
      ∃ k : ℝ, 0 < k ∧ e0 = k * 1 ∧ e1 = k * 2 ∧ e2 = k * 2 :=
  normalise_unit_norm 1 1 1 2 2 (by decide) (by decide) (by norm_num)

/-- C7 at the one-pixel region `(1, 2, 3)` with the illuminant `(2, 2, 2)`. -/
theorem apply_illuminant_rescales_witness :
    ∃ (M : ℝ) (ys : List ℝ),
      (applyGain 3 1 (([1, 2, 3] : List ℝ).map fin)
          { c0 := fin 2, c1 := fin 2,
            c2 := fin 2 }).map Gain.immax = some (fin M) ∧
      apply_illuminant 3 1 (([1, 2, 3] : List ℝ).map fin)
          { c0 := fin 2, c1 := fin 2,
            c2 := fin 2 } = some (ys.map fin) ∧
      ys.length = 3 * 1 ∧
      (∀ p < 1, ∀ k < 3, ([1, 2, 3] : List ℝ).getD (3 * p + k) 0 / 2 ≤ M) ∧
      (0 < 1 → ∃ p < 1, ∃ k < 3,
        ([1, 2, 3] : List ℝ).getD (3 * p + k) 0 / 2 = M) ∧
      (∀ p < 1, ∀ k < 3, ys.getD (3 * p + k) 0 =
        if 1 < M then ([1, 2, 3] : List ℝ).getD (3 * p + k) 0 / 2 / M
        else ([1, 2, 3] : List ℝ).getD (3 * p + k) 0 / 2) ∧
      (∀ y ∈ ys, 0 ≤ y ∧ y ≤ 1) :=
  apply_illuminant_rescales [1, 2, 3] (fun _ => 2) 1 rfl
    (by
      intro x hx
      simp only [List.mem_cons, List.mem_singleton, List.not_mem_nil, or_false] at hx
      rcases hx with h | h | h <;> rw [h] <;> norm_num)
    (by intro k _; norm_num)

/-- C9 at the one-pixel linear image `(1, 1, 1)` with threshold 5 and norm 2. -/
theorem no_eligible_pixel_gives_nan_witness :
    accumulate realLibm 3 1 [fin 1, fin 1, fin 1] { thresh := 5, norm := 2, preview := true } =
        some { ill_est := { c0 := fin 0, c1 := fin 0, c2 := fin 0 }, count_pix := 0 } ∧
      estimate_illuminant realLibm 3 1 [fin 1, fin 1, fin 1]
          { thresh := 5, norm := 2, preview := true } = some { c0 := nan, c1 := nan, c2 := nan } :=
  no_eligible_pixel_gives_nan 3 1 [fin 1, fin 1, fin 1]
    { thresh := 5, norm := 2, preview := true } (by decide) (by decide)
    (by
      intro p hp
      have hp0 : p = 0 := by omega
      subst hp0
      simp [CHECK_TH, th_val_eq])

/-! ## Exponentiation by squaring -/

/-- The loop of `powN` on finite values exits within `fuel` iterations when `p < 2 ^ fuel`,
with the exact power. -/
theorem powNWithin_fin {α : Type} [LinearOrderedField α] :
    ∀ (fuel : Nat) (x y : α) (p : Nat), p < 2 ^ fuel →
      powNWithin fuel (fin x) (fin y) p = some (fin (y * x ^ p)) := by
  intro fuel
  induction fuel with
  | zero =>
    intro x y p hp
    have : p = 0 := by simpa using hp
    subst this
    simp [powNWithin]
  | succ fuel ih =>
    intro x y p hp
    unfold powNWithin
    by_cases h0 : 0 < p
    · rw [if_pos h0]
      have hhalf : p / 2 < 2 ^ fuel := by
        rw [Nat.pow_succ] at hp
        omega
      have hdecomp : p = 2 * (p / 2) + p % 2 := (Nat.div_add_mod p 2).symm
      by_cases h1 : p % 2 = 1
      · rw [if_pos h1, fin_mul_fin, fin_mul_fin, ih _ _ _ hhalf]
        congr 2
        conv_rhs => rw [hdecomp, h1, pow_succ, pow_mul]
        ring
      · have h1' : p % 2 = 0 := by omega
        rw [if_neg h1, fin_mul_fin, ih _ _ _ hhalf]
        congr 2
        conv_rhs => rw [hdecomp, h1', Nat.add_zero, pow_mul]
        ring
    · have : p = 0 := by omega
      subst this
      simp

/-- Claim C16. For every finite `x` and every `guint32` exponent `p` (0 included, giving
1) the loop of `powN` exits within 32 iterations, and `powN(x, p)` is the exact power
`x ^ p`. -/
theorem powN_exact {α : Type} [LinearOrderedField α] (x : α) (p : Nat) (hp : p < 2 ^ 32) :
    powNWithin 32 (fin x) (fin 1) p = some (fin (x ^ p)) ∧ powN (fin x) p = fin (x ^ p) := by
  constructor
  · rw [powNWithin_fin 32 x 1 p hp, one_mul]
  · rw [powN_fin, Nat.mod_eq_of_lt hp]

/-- C16 at `x = 2`, `p = 10`. -/
theorem powN_exact_witness :
    powNWithin 32 (fin (2 : ℚ)) (fin 1) 10 = some (fin ((2 : ℚ) ^ 10)) ∧
      powN (fin (2 : ℚ)) 10 = fin ((2 : ℚ) ^ 10) :=
  powN_exact 2 10 (by decide)
/-! ## The raw estimate in closed form -/

/-- For `par.norm > 4` the accumulator is the generic branch. -/
theorem accumulate_above_four {α : Type} [LinearOrderedField α] (L : Libm α) (c n : Nat)
    (im : List (FVal α)) (par : Shades_param) (h : 4 < par.norm) :
    accumulate L c n im par = generic_branch L c n im par.thresh par.norm := by
  unfold accumulate generic_branch
  dsimp only
  rw [if_neg (by omega), if_neg (by omega), if_neg (by omega), if_neg (by omega),
    if_neg (by omega), if_pos h]

theorem getD_nonneg (xs : List ℝ) (hnn : ∀ x ∈ xs, 0 ≤ x) (i : Nat) : 0 ≤ xs.getD i 0 := by
  by_cases hi : i < xs.length
  · rw [List.getD_eq_getElem _ _ hi]; exact hnn _ (List.getElem_mem hi)
  · rw [List.getD_eq_default _ _ (not_lt.mp hi)]

/-- The generic branch for an order `p >= 1` on a finite three-channel image of
non-negative samples: `count_pix` is the number of eligible pixels and every element of
`ill_est` the `1/p`-th power of the sum of the `p`-th powers of its channel over them. -/
theorem generic_branch_closed_form (xs : List ℝ) (n : Nat) (thresh p : Int)
    (hlen : xs.length = 3 * n) (hnn : ∀ x ∈ xs, 0 ≤ x) (hp2 : p < 2 ^ 32) :
    generic_branch realLibm 3 n (xs.map fin) thresh p =
      some { ill_est :=
          { c0 := fin ((∑ q ∈ (Finset.range n).filter
                  (fun q => Eligible xs (3 * q) (1 - (thresh : ℝ) / 100)),
                  xs.getD (3 * q + 0) 0 ^ p.toNat) ^ (1 / (p : ℝ))),
            c1 := fin ((∑ q ∈ (Finset.range n).filter
                  (fun q => Eligible xs (3 * q) (1 - (thresh : ℝ) / 100)),
                  xs.getD (3 * q + 1) 0 ^ p.toNat) ^ (1 / (p : ℝ))),
            c2 := fin ((∑ q ∈ (Finset.range n).filter
                  (fun q => Eligible xs (3 * q) (1 - (thresh : ℝ) / 100)),
                  xs.getD (3 * q + 2) 0 ^ p.toNat) ^ (1 / (p : ℝ))) },
             count_pix := ((Finset.range n).filter
               (fun q => Eligible xs (3 * q) (1 - (thresh : ℝ) / 100))).card } := by
  have hmod : p.toNat % 2 ^ 32 = p.toNat := by
    apply Nat.mod_eq_of_lt
    omega
  have hloop := sum_loop (fun x : ℝ => x ^ (p.toNat % 2 ^ 32)) (fun x => powN x p.toNat)
    (fun x => powN_fin x _) 3 n xs (1 - (thresh : ℝ) / 100) (le_refl 3) hlen n (le_refl n)
  have hnn' : ∀ k, 0 ≤ ∑ q ∈ (Finset.range n).filter
      (fun q => Eligible xs (3 * q) (1 - (thresh : ℝ) / 100)), xs.getD (3 * q + k) 0 ^ p.toNat :=
    fun k => Finset.sum_nonneg (fun q _ => pow_nonneg (getD_nonneg xs hnn _) _)
  unfold generic_branch
  dsimp only
  rw [th_val_eq, show pixelIters 3 n = n by simp [pixelIters], hloop]
  simp only [Option.map_some', rootAll, fpow, hmod, not_lt.mpr (hnn' _), if_false, realLibm]

/-- The accumulator for an order `p >= 1` on a finite three-channel image of non-negative
samples, every branch: the same closed form as the generic branch. -/
theorem accumulate_closed_form (xs : List ℝ) (n : Nat) (thresh p : Int) (pv : Bool)
    (hlen : xs.length = 3 * n) (hnn : ∀ x ∈ xs, 0 ≤ x) (hp1 : 1 ≤ p) (hp2 : p < 2 ^ 32) :
    accumulate realLibm 3 n (xs.map fin) { thresh := thresh, norm := p, preview := pv } =
      generic_branch realLibm 3 n (xs.map fin) thresh p := by
  by_cases h5 : 4 < p
  · exact accumulate_above_four realLibm 3 n _ _ h5
  rw [generic_branch_closed_form xs n thresh p hlen hnn hp2]
  have hnn' : ∀ (k e : Nat), 0 ≤ ∑ q ∈ (Finset.range n).filter
      (fun q => Eligible xs (3 * q) (1 - (thresh : ℝ) / 100)), xs.getD (3 * q + k) 0 ^ e :=
    fun k e => Finset.sum_nonneg (fun q _ => pow_nonneg (getD_nonneg xs hnn _) _)
  have hit : pixelIters 3 n = n := by simp [pixelIters]
  unfold accumulate
  dsimp only
  rw [hit, th_val_eq]
  have hcases : p = 1 ∨ p = 2 ∨ p = 3 ∨ p = 4 := by omega
  rcases hcases with rfl | rfl | rfl | rfl
  · rw [if_neg (by decide), if_pos rfl,
      sum_loop (fun x : ℝ => x) (fun x => x) (fun _ => rfl) 3 n xs _ (le_refl 3) hlen n (le_refl n)]
    simp
  · rw [if_neg (by decide), if_neg (by decide), if_pos rfl,
      sum_loop (fun x : ℝ => x * x) POW2 (fun _ => rfl) 3 n xs _ (le_refl 3) hlen n (le_refl n)]
    have hsq : ∀ x : ℝ, x * x = x ^ 2 := fun x => (sq x).symm
    simp only [Option.map_some', rootAll, fsqrt, realLibm, hsq, not_lt.mpr (hnn' _ 2), if_false,
      Real.sqrt_eq_rpow]
    norm_num [show (2 : Int).toNat = 2 from rfl]
  · rw [if_neg (by decide), if_neg (by decide), if_neg (by decide), if_pos rfl,
      sum_loop (fun x : ℝ => x * x * x) POW3 (fun _ => rfl) 3 n xs _ (le_refl 3) hlen n (le_refl n)]
    have hcube : ∀ x : ℝ, x * x * x = x ^ 3 := fun x => by ring
    simp only [Option.map_some', rootAll, fcbrt, realLibm, hcube, hnn' _ 3, if_true]
    norm_num [show (3 : Int).toNat = 3 from rfl]
  · have hfun : norm4Pixel 3 (xs.map fin) (fin (1 - (thresh : ℝ) / 100)) =
        sumPixel (fun x => POW2 (POW2 x)) 3 (xs.map fin) (fin (1 - (thresh : ℝ) / 100)) := by
      funext q s; exact norm4Pixel_three _ _ q s
    rw [if_neg (by decide), if_neg (by decide), if_neg (by decide), if_neg (by decide),
      if_pos rfl, hfun,
      sum_loop (fun x : ℝ => x * x * (x * x)) (fun x => POW2 (POW2 x)) (fun _ => rfl) 3 n xs _
        (le_refl 3) hlen n (le_refl n)]
    have h4 : ∀ x : ℝ, x * x * (x * x) = x ^ 4 := fun x => by ring
    simp only [Option.map_some', rootAll, fpow, realLibm, h4, not_lt.mpr (hnn' _ 4), if_false]
    norm_num [show (4 : Int).toNat = 4 from rfl]
/-- Claim C17. On a three-channel linear image of non-negative samples, for every
threshold and every order `p` of 1, 2, 3, 4, the specialised branch of the accumulator
gives the raw estimate and the `count_pix` that the generic branch (sums of `powN(value, p)`
over the eligible pixels, then the power `1/p`) gives for the same `p`. -/
theorem fast_paths_agree_with_generic (xs : List ℝ) (n : Nat) (thresh p : Int) (pv : Bool)
    (hlen : xs.length = 3 * n) (hnn : ∀ x ∈ xs, 0 ≤ x)
    (hp : p = 1 ∨ p = 2 ∨ p = 3 ∨ p = 4) :
    ∃ s : Acc ℝ,
      accumulate realLibm 3 n (xs.map fin) { thresh := thresh, norm := p, preview := pv } =
        some s ∧
      generic_branch realLibm 3 n (xs.map fin) thresh p = some s := by
  have hp1 : 1 ≤ p := by omega
  have hp2 : p < 2 ^ 32 := by
    rcases hp with rfl | rfl | rfl | rfl <;> decide
  have h := accumulate_closed_form xs n thresh p pv hlen hnn hp1 hp2
  rw [h]
  exact ⟨_, generic_branch_closed_form xs n thresh p hlen hnn hp2, 
    generic_branch_closed_form xs n thresh p hlen hnn hp2⟩

/-- C17 at the two-pixel image `(0.8, 0.8, 0.8), (0.2, 0.4, 0.6)`, threshold 0, order 2. -/
theorem fast_paths_agree_with_generic_witness :
    ∃ s : Acc ℝ,
      accumulate realLibm 3 2 (([0.8, 0.8, 0.8, 0.2, 0.4, 0.6] : List ℝ).map fin)
          { thresh := 0, norm := 2, preview := true } = some s ∧
      generic_branch realLibm 3 2 (([0.8, 0.8, 0.8, 0.2, 0.4, 0.6] : List ℝ).map fin) 0 2 =
        some s :=
  fast_paths_agree_with_generic [0.8, 0.8, 0.8, 0.2, 0.4, 0.6] 2 0 2 true rfl
    (by
      intro x hx
      simp only [List.mem_cons, List.mem_singleton, List.not_mem_nil, or_false] at hx
      rcases hx with h | h | h | h | h | h <;> rw [h] <;> norm_num)
    (Or.inr (Or.inl rfl))

/-! ## The normalised illuminant in closed form -/

/-- The normaliser on a finite raw estimate that is not zero, `count_pix` positive. -/
theorem normalise_fin (norm : Int) (cnt : Nat) (r0 r1 r2 : ℝ) (hn : norm ≠ 0)
    (hc : 0 < cnt) (hr : ¬ (r0 = 0 ∧ r1 = 0 ∧ r2 = 0)) :
    0 < r0 / cnt * (r0 / cnt) + r1 / cnt * (r1 / cnt) + r2 / cnt * (r2 / cnt) ∧
    normalise realLibm norm
        { ill_est := { c0 := fin r0, c1 := fin r1, c2 := fin r2 }, count_pix := cnt } =
      { c0 := fin (r0 / cnt /
          Real.sqrt (r0 / cnt * (r0 / cnt) + r1 / cnt * (r1 / cnt) + r2 / cnt * (r2 / cnt))),
        c1 := fin (r1 / cnt /
          Real.sqrt (r0 / cnt * (r0 / cnt) + r1 / cnt * (r1 / cnt) + r2 / cnt * (r2 / cnt))),
        c2 := fin (r2 / cnt /
          Real.sqrt (r0 / cnt * (r0 / cnt) + r1 / cnt * (r1 / cnt) + r2 / cnt * (r2 / cnt))) } := by
  have hcnt : (0 : ℝ) < (cnt : ℝ) := by exact_mod_cast hc
  have hS : 0 < r0 / cnt * (r0 / cnt) + r1 / cnt * (r1 / cnt) + r2 / cnt * (r2 / cnt) := by
    have h0 := mul_self_nonneg (r0 / cnt)
    have h1 := mul_self_nonneg (r1 / cnt)
    have h2 := mul_self_nonneg (r2 / cnt)
    by_contra hle
    push_neg at hle
    have e0 : r0 / cnt * (r0 / cnt) = 0 := by linarith
    have e1 : r1 / cnt * (r1 / cnt) = 0 := by linarith
    have e2 : r2 / cnt * (r2 / cnt) = 0 := by linarith
    have z : ∀ r : ℝ, r / cnt * (r / cnt) = 0 → r = 0 := by
      intro r e
      rcases div_eq_zero_iff.mp (mul_self_eq_zero.mp e) with h | h
      · exact h
      · exact absurd h hcnt.ne'
    exact hr ⟨z r0 e0, z r1 e1, z r2 e2⟩
  refine ⟨hS, ?_⟩
  have hsq : 0 < Real.sqrt (r0 / cnt * (r0 / cnt) + r1 / cnt * (r1 / cnt) +
      r2 / cnt * (r2 / cnt)) := Real.sqrt_pos.mpr hS
  simp only [normalise, if_pos hn, divide_by_count, divide_by_norm]
  rw [fin_div_fin _ _ hcnt.ne', fin_div_fin _ _ hcnt.ne', fin_div_fin _ _ hcnt.ne']
  simp only [fin_mul_fin, fin_add_fin, fsqrt, not_lt.mpr hS.le, if_false, realLibm]
  rw [fin_div_fin _ _ hsq.ne', fin_div_fin _ _ hsq.ne', fin_div_fin _ _ hsq.ne']

/-- Scaling a vector by a positive factor does not change its direction. -/
theorem scaled_direction (a r0 r1 r2 x : ℝ) (ha : 0 < a) :
    a * x / Real.sqrt (a * r0 * (a * r0) + a * r1 * (a * r1) + a * r2 * (a * r2)) =
      x / Real.sqrt (r0 * r0 + r1 * r1 + r2 * r2) := by
  have h : a * r0 * (a * r0) + a * r1 * (a * r1) + a * r2 * (a * r2) =
      a ^ 2 * (r0 * r0 + r1 * r1 + r2 * r2) := by ring
  rw [h, Real.sqrt_mul (sq_nonneg a), Real.sqrt_sq ha.le, mul_div_mul_left _ _ ha.ne']
/-- The illuminant for an order `p >= 1` on a finite three-channel image of non-negative
samples with an eligible pixel and a raw estimate that is not zero: the direction of the
vector of the `1/p`-th powers of the channel sums `S k`. -/
theorem illuminant_direction (xs : List ℝ) (n : Nat) (thresh p : Int) (pv : Bool)
    (hlen : xs.length = 3 * n) (hnn : ∀ x ∈ xs, 0 ≤ x) (hp1 : 1 ≤ p) (hp2 : p < 2 ^ 32)
    (S : Nat → ℝ)
    (hS : ∀ k < 3, S k = ∑ q ∈ (Finset.range n).filter
      (fun q => Eligible xs (3 * q) (1 - (thresh : ℝ) / 100)), xs.getD (3 * q + k) 0 ^ p.toNat)
    (hpos : 0 < ((Finset.range n).filter
      (fun q => Eligible xs (3 * q) (1 - (thresh : ℝ) / 100))).card)
    (hnz : ¬ (S 0 = 0 ∧ S 1 = 0 ∧ S 2 = 0)) :
    estimate_illuminant realLibm 3 n (xs.map fin)
        { thresh := thresh, norm := p, preview := pv } =
      some { c0 := fin (S 0 ^ (1 / (p : ℝ)) / Real.sqrt (S 0 ^ (1 / (p : ℝ)) * S 0 ^ (1 / (p : ℝ)) +
                S 1 ^ (1 / (p : ℝ)) * S 1 ^ (1 / (p : ℝ)) + S 2 ^ (1 / (p : ℝ)) * S 2 ^ (1 / (p : ℝ)))),
             c1 := fin (S 1 ^ (1 / (p : ℝ)) / Real.sqrt (S 0 ^ (1 / (p : ℝ)) * S 0 ^ (1 / (p : ℝ)) +
                S 1 ^ (1 / (p : ℝ)) * S 1 ^ (1 / (p : ℝ)) + S 2 ^ (1 / (p : ℝ)) * S 2 ^ (1 / (p : ℝ)))),
             c2 := fin (S 2 ^ (1 / (p : ℝ)) / Real.sqrt (S 0 ^ (1 / (p : ℝ)) * S 0 ^ (1 / (p : ℝ)) +
                S 1 ^ (1 / (p : ℝ)) * S 1 ^ (1 / (p : ℝ)) + S 2 ^ (1 / (p : ℝ)) * S 2 ^ (1 / (p : ℝ)))) } := by
  have hS0 : ∀ k < 3, 0 ≤ S k := by
    intro k hk
    rw [hS k hk]
    exact Finset.sum_nonneg (fun q _ => pow_nonneg (getD_nonneg xs hnn _) _)
  have hroot0 : ∀ k < 3, S k ^ (1 / (p : ℝ)) = 0 → S k = 0 := by
    intro k hk h
    by_contra hne
    have : 0 < S k := lt_of_le_of_ne (hS0 k hk) (Ne.symm hne)
    have := Real.rpow_pos_of_pos this (1 / (p : ℝ))
    linarith
  have hr : ¬ (S 0 ^ (1 / (p : ℝ)) = 0 ∧ S 1 ^ (1 / (p : ℝ)) = 0 ∧ S 2 ^ (1 / (p : ℝ)) = 0) :=
    fun h => hnz ⟨hroot0 0 (by decide) h.1, hroot0 1 (by decide) h.2.1,
      hroot0 2 (by decide) h.2.2⟩
  have hp0 : p ≠ 0 := by omega
  have hcnt : (0 : ℝ) < (((Finset.range n).filter
      (fun q => Eligible xs (3 * q) (1 - (thresh : ℝ) / 100))).card : ℝ) := by exact_mod_cast hpos
  rw [estimate_illuminant, accumulate_closed_form xs n thresh p pv hlen hnn hp1 hp2,
    generic_branch_closed_form xs n thresh p hlen hnn hp2]
  rw [← hS 0 (by decide), ← hS 1 (by decide), ← hS 2 (by decide)]
  simp only [Option.map_some']
  rw [(normalise_fin p _ _ _ _ hp0 hpos hr).2]
  generalize ((Finset.range n).filter
    (fun q => Eligible xs (3 * q) (1 - (thresh : ℝ) / 100))).card = cnt at hcnt
  have hinv : (0 : ℝ) < (cnt : ℝ)⁻¹ := by positivity
  have e : ∀ x : ℝ, x / (cnt : ℝ) = (cnt : ℝ)⁻¹ * x := fun x => div_eq_inv_mul x _
  rw [e (S 0 ^ (1 / (p : ℝ))), e (S 1 ^ (1 / (p : ℝ))), e (S 2 ^ (1 / (p : ℝ)))]
  rw [scaled_direction _ _ _ _ _ hinv, scaled_direction _ _ _ _ _ hinv,
    scaled_direction _ _ _ _ _ hinv]

/-- The byte `float2im` writes for a finite sample of `[0,1]`. -/
theorem float2im1_byte {α : Type} [LinearOrderedField α] [FloorRing α] (w : α) (n : Nat)
    (hn : n < 256) (h0 : 0 ≤ w) (h1 : w ≤ 1) (hlo : (n : α) ≤ w * 255 + 1 / 2)
    (hhi : w * 255 + 1 / 2 < (n : α) + 1) : float2im1 (fin w) = some ⟨n, hn⟩ := by
  obtain ⟨k, _, _, hb, hk⟩ := float2im1_fin w h0 h1
  have hfl : ⌊w * 255 + 1 / 2⌋ = (n : Int) := by
    rw [Int.floor_eq_iff]
    constructor
    · push_cast; exact hlo
    · push_cast; exact hhi
  rw [hfl] at hk
  have hkn : k = n := by exact_mod_cast hk
  subst hkn
  cases h : float2im1 (fin w) with
  | none => rw [h] at hb; simp at hb
  | some b =>
    rw [h] at hb
    simp only [Option.map_some', Option.some.injEq] at hb
    congr 1
    exact Fin.ext hb

/-- Bounds on the power `x ^ (1/2.4)` from bounds on twelfth and fifth powers. -/
theorem rpow_encode_bounds (x lo hi : ℝ) (hx : 0 ≤ x) (hhi : 0 ≤ hi)
    (h1 : lo ^ 12 < x ^ 5) (h2 : x ^ 5 < hi ^ 12) :
    lo < x ^ ((1 : ℝ) / 2.4) ∧ x ^ ((1 : ℝ) / 2.4) < hi := by
  set r : ℝ := x ^ ((1 : ℝ) / 2.4) with hr
  have hr0 : 0 ≤ r := Real.rpow_nonneg hx _
  have h12 : r ^ 12 = x ^ 5 := by
    rw [hr, ← Real.rpow_natCast, ← Real.rpow_mul hx]
    have : ((1 : ℝ) / 2.4) * ((12 : ℕ) : ℝ) = ((5 : ℕ) : ℝ) := by norm_num
    rw [this, Real.rpow_natCast]
  constructor
  · by_contra h
    push_neg at h
    have : r ^ 12 ≤ lo ^ 12 := pow_le_pow_left₀ hr0 h 12
    rw [h12] at this
    linarith
  · by_contra h
    push_neg at h
    have : hi ^ 12 ≤ r ^ 12 := pow_le_pow_left₀ hhi h 12
    rw [h12] at this
    linarith

/-- The loop body of `linear2sRGB` on a finite sample above the branch point. -/
theorem linear2sRGB1_power_branch (x : ℝ) (hx : 0.00304 < x) :
    linear2sRGB1 realLibm (fin x) =
      (if 0 < (x * 1.055) ^ ((1 : ℝ) / 2.4) - 0.055 then
        (if (x * 1.055) ^ ((1 : ℝ) / 2.4) - 0.055 < 1 then
          fin ((x * 1.055) ^ ((1 : ℝ) / 2.4) - 0.055) else fin 1)
       else fin 0) := by
  unfold linear2sRGB1
  have h1 : ¬ x ≤ 0.00304 := not_le.mpr hx
  have h2 : ¬ (x * 1.055 < 0) := by
    have : (0 : ℝ) < x := by linarith
    have : 0 < x * 1.055 := by positivity
    linarith
  simp only [le_fin_fin, h1, decide_False, Bool.false_eq_true, if_false, fin_mul_fin, fpow, h2,
    realLibm, fin_sub_fin, gt_fin_fin, lt_fin_fin]
  by_cases h3 : 0 < (x * 1.055) ^ ((1 : ℝ) / 2.4) - 0.055
  · by_cases h4 : (x * 1.055) ^ ((1 : ℝ) / 2.4) - 0.055 < 1
    · simp only [h3, h4, decide_True, if_true]
      simp only [lt_fin_fin, h4, decide_True, if_true]
    · simp only [h3, h4, decide_True, if_true]
      simp only [lt_fin_fin, h4, decide_False, Bool.false_eq_true, if_false]
  · simp only [h3, decide_False, Bool.false_eq_true, if_false]
    simp only [lt_fin_fin, zero_lt_one, decide_True, if_true]

/-- The loop body of `linear2sRGB` on a finite sample of the linear branch. -/
theorem linear2sRGB1_linear_branch {α : Type} [LinearOrderedField α] (L : Libm α) (x : α)
    (h0 : 0 < x) (hx : x ≤ 0.00304) : linear2sRGB1 L (fin x) = fin (x * 12.92) := by
  unfold linear2sRGB1
  have h3 : 0 < x * 12.92 := by positivity
  have h4 : x * 12.92 < 1 := by
    have : x * 12.92 ≤ 0.00304 * 12.92 := by
      apply mul_le_mul_of_nonneg_right hx
      norm_num
    have h5 : (0.00304 : α) * 12.92 < 1 := by norm_num
    linarith
  simp only [le_fin_fin, hx, decide_True, if_true, fin_mul_fin, gt_fin_fin, h3, lt_fin_fin, h4]

/-- Above 1 the byte is not that of the clamped sample: the linear value 2.0 is encoded as
the byte 255, and 1.0, the value it is clamped to, as the byte 247. -/
theorem encode_two_differs_from_encode_one :
    float2im1 (linear2sRGB1 realLibm (fin 2)) = some 255 ∧
      float2im1 (linear2sRGB1 realLibm (fin 1)) = some 247 := by
  refine ⟨?_, encode_one_is_247⟩
  have hb := (rpow_encode_bounds (2 * 1.055) 1.055 3 (by norm_num) (by norm_num)
    (by norm_num) (by norm_num)).1
  rw [linear2sRGB1_power_branch 2 (by norm_num), if_pos (by linarith), if_neg (by linarith)]
  exact float2im1_byte (1 : ℝ) 255 (by decide) zero_le_one (le_refl _) (by norm_num)
    (by norm_num)

/-! ## The range of the samples the applier hands to the encoder -/

section ApplierRange

variable {α : Type} [LinearOrderedField α]

end ApplierRange

/-- Claim C20, failing input. The linear values 0.003 and 0.00305 lie in `[0,1]` in
increasing order, on either side of the branch point 0.00304; `linear2sRGB` gives 0.03876
for the first and less for the second, and `float2im` the bytes 10 and 9. -/
theorem encode_decreases_across_branch :
    linear2sRGB1 realLibm (fin 0.003) = fin 0.03876 ∧
      (∃ v : ℝ, linear2sRGB1 realLibm (fin 0.00305) = fin v ∧ v < 0.03876) ∧
      float2im1 (linear2sRGB1 realLibm (fin 0.003)) = some 10 ∧
      float2im1 (linear2sRGB1 realLibm (fin 0.00305)) = some 9 := by
  have hlin : linear2sRGB1 realLibm (fin 0.003) = fin 0.03876 := by
    rw [linear2sRGB1_linear_branch realLibm 0.003 (by norm_num) (by norm_num)]
    norm_num
  obtain ⟨hlo, hhi⟩ := rpow_encode_bounds (0.00305 * 1.055) 0.0884 0.0922 (by norm_num)
    (by norm_num) (by norm_num) (by norm_num)
  have hpow : linear2sRGB1 realLibm (fin 0.00305) =
      fin ((0.00305 * 1.055) ^ ((1 : ℝ) / 2.4) - 0.055) := by
    rw [linear2sRGB1_power_branch 0.00305 (by norm_num), if_pos (by linarith),
      if_pos (by linarith)]
  refine ⟨hlin, ⟨_, hpow, by linarith⟩, ?_, ?_⟩
  · rw [hlin]
    exact float2im1_byte (0.03876 : ℝ) 10 (by decide) (by norm_num) (by norm_num)
      (by norm_num) (by norm_num)
  · rw [hpow]
    exact float2im1_byte _ 9 (by decide) (by linarith) (by linarith)
      (by push_cast; linarith) (by push_cast; linarith)

/-! ## Four channels: the illuminant arrays -/

/-- With more than three channels the Max-RGB loop reads `ill_est[3]`, outside the array,
at the first eligible pixel. -/
theorem maxRgbPixel_out_of_bounds {α : Type} [LinearOrderedField α] (c : Nat) (hc : 3 < c)
    (im : List (FVal α)) (th : FVal α) (p : Nat) (s : Acc α)
    (h : CHECK_TH im (p * c) th = some true) : maxRgbPixel c im th p s = none := by
  unfold maxRgbPixel
  dsimp only
  rw [h]
  simp only [Option.some_bind, if_true]
  have hloop : forLoop (fun k (e : Vec3 (FVal α)) =>
      (im[p * c + k]?).bind fun x =>
        (e.get? k).bind fun cur =>
          if FVal.gt x cur then e.set? k x else some e) c s.ill_est = none := by
    apply forLoop_none _ 3 _ c hc
    intro e
    cases im[p * c + 3]? with
    | none => rfl
    | some x => rfl
  rw [hloop]
  rfl

/-- Claim C19, failing input. On the one-pixel linear RGBA image `(0.5, 0.5, 0.5, 1)` with
threshold 5, the Max-RGB loop (`par.norm == 0`) and the `par.norm == 4` loop index
`ill_est[3]` and the gain loop indexes `app_ill[3]`: each access is outside the
three-element array and the result is undefined. -/
theorem illuminant_index_out_of_bounds :
    accumulate realLibm 4 1 [fin 0.5, fin 0.5, fin 0.5, fin 1]
        { thresh := 5, norm := 0, preview := true } = none ∧
      accumulate realLibm 4 1 [fin 0.5, fin 0.5, fin 0.5, fin 1]
        { thresh := 5, norm := 4, preview := true } = none ∧
      apply_illuminant 4 1 [fin 0.5, fin 0.5, fin 0.5, fin (1 : ℝ)]
        { c0 := fin 1, c1 := fin 1, c2 := fin 1 } = none := by
  have hcheck : CHECK_TH [fin 0.5, fin 0.5, fin 0.5, fin (1 : ℝ)] (0 * 4) (th_val 5) =
      some true := by
    simp [CHECK_TH, th_val_eq]
    norm_num
  have hit : pixelIters 4 1 = 1 := by decide
  refine ⟨?_, ?_, apply_illuminant_out_of_bounds 4 1 (by decide) (by decide) _ _⟩
  · unfold accumulate
    dsimp only
    rw [hit, if_pos rfl]
    simp only [forLoop, Option.some_bind]
    exact maxRgbPixel_out_of_bounds 4 (by decide) _ _ 0 _ hcheck
  · unfold accumulate
    dsimp only
    rw [hit, if_neg (by decide), if_neg (by decide), if_neg (by decide), if_neg (by decide),
      if_pos rfl]
    simp only [forLoop, Option.some_bind, Option.map_eq_none']
    exact norm4Pixel_out_of_bounds 4 (by decide) _ _ 0 _ hcheck

/-- Claim C11, failing input. On a drawable of one RGBA pixel with the bytes
`(128, 128, 128, 255)`, threshold 5, norm 5 and no preview, the gain loop of
`shades_of_grey` divides the fourth channel by `app_ill[3]`, outside the array: the function
has no defined result, so no output byte is determined for the fourth channel. -/
theorem rgba_fourth_channel_divided :
    shades_of_grey realLibm
        { bpp := 4, x1 := 0, y1 := 0, x2 := 1, y2 := 1,
          pixel := fun _ _ k => if k = 3 then 255 else 128 }
        { thresh := 5, norm := 5, preview := true } none = none :=
  shades_of_grey_out_of_bounds realLibm _ _ (by decide) (by decide)

/-! ## Grey-World with one eligible pixel -/

/-- Claim C14, as the code has it. Grey-World (`par.norm == 1`) on a linear image with
exactly one eligible pixel `(r, g, b)`, all positive: `count_pix` is 1, the raw estimate is
`(r, g, b)`, and dividing the pixel by the normalised illuminant gives
`sqrt(r^2 + g^2 + b^2)` in each of its three channels. -/
theorem greyWorld_single_pixel_to_grey (xs : List ℝ) (c n : Nat) (thresh : Int) (pv : Bool)
    (q : Nat) (r g b : ℝ) (hc : 3 ≤ c) (hlen : xs.length = c * n) (hq : q < n)
    (hE : Eligible xs (c * q) (1 - (thresh : ℝ) / 100))
    (hother : ∀ p < n, p ≠ q → ¬ Eligible xs (c * p) (1 - (thresh : ℝ) / 100))
    (hr : xs.getD (c * q) 0 = r) (hg : xs.getD (c * q + 1) 0 = g)
    (hb : xs.getD (c * q + 2) 0 = b) (hr0 : 0 < r) (hg0 : 0 < g) (hb0 : 0 < b) :
    accumulate realLibm c n (xs.map fin) { thresh := thresh, norm := 1, preview := pv } =
        some { ill_est := { c0 := fin r, c1 := fin g, c2 := fin b }, count_pix := 1 } ∧
      ∃ e0 e1 e2 : ℝ,
        estimate_illuminant realLibm c n (xs.map fin)
            { thresh := thresh, norm := 1, preview := pv } =
          some { c0 := fin e0, c1 := fin e1, c2 := fin e2 } ∧
        (fin r / fin e0 : FVal ℝ) = fin (Real.sqrt (r ^ 2 + g ^ 2 + b ^ 2)) ∧
        (fin g / fin e1 : FVal ℝ) = fin (Real.sqrt (r ^ 2 + g ^ 2 + b ^ 2)) ∧
        (fin b / fin e2 : FVal ℝ) = fin (Real.sqrt (r ^ 2 + g ^ 2 + b ^ 2)) := by
  have hF : (Finset.range n).filter
      (fun p => Eligible xs (c * p) (1 - (thresh : ℝ) / 100)) = {q} := by
    ext p
    simp only [Finset.mem_filter, Finset.mem_range, Finset.mem_singleton]
    constructor
    · rintro ⟨hp, hEp⟩
      by_contra hne
      exact hother p hp hne hEp
    · rintro rfl
      exact ⟨hq, hE⟩
  have hc0 : c ≠ 0 := by omega
  have hacc : accumulate realLibm c n (xs.map fin)
      { thresh := thresh, norm := 1, preview := pv } =
      some { ill_est := { c0 := fin r, c1 := fin g, c2 := fin b }, count_pix := 1 } := by
    have hloop := sum_loop (fun x : ℝ => x) (fun x => x) (fun _ => rfl) c n xs
      (1 - (thresh : ℝ) / 100) hc hlen n (le_refl n)
    rw [hF] at hloop
    simp only [Finset.sum_singleton, Finset.card_singleton, Nat.add_zero, hr, hg, hb] at hloop
    unfold accumulate
    dsimp only
    rw [show pixelIters c n = n by simp [pixelIters, hc0], th_val_eq, if_neg (by decide),
      if_pos rfl]
    exact hloop
  refine ⟨hacc, ?_⟩
  obtain ⟨hT, hnorm⟩ := normalise_fin 1 1 r g b (by decide) (by decide)
    (fun h => hr0.ne' h.1)
  have hT' : r / ((1 : ℕ) : ℝ) * (r / ((1 : ℕ) : ℝ)) + g / ((1 : ℕ) : ℝ) * (g / ((1 : ℕ) : ℝ)) +
      b / ((1 : ℕ) : ℝ) * (b / ((1 : ℕ) : ℝ)) = r ^ 2 + g ^ 2 + b ^ 2 := by
    push_cast
    ring
  rw [hT'] at hT hnorm
  have hsq : 0 < Real.sqrt (r ^ 2 + g ^ 2 + b ^ 2) := Real.sqrt_pos.mpr hT
  have key : ∀ x : ℝ, 0 < x →
      (fin x / fin (x / ((1 : ℕ) : ℝ) / Real.sqrt (r ^ 2 + g ^ 2 + b ^ 2)) : FVal ℝ) =
        fin (Real.sqrt (r ^ 2 + g ^ 2 + b ^ 2)) := by
    intro x hx
    have hne : x / ((1 : ℕ) : ℝ) / Real.sqrt (r ^ 2 + g ^ 2 + b ^ 2) ≠ 0 := by
      have : 0 < x / ((1 : ℕ) : ℝ) / Real.sqrt (r ^ 2 + g ^ 2 + b ^ 2) := by positivity
      exact this.ne'
    rw [fin_div_fin _ _ hne]
    congr 1
    push_cast
    field_simp
  refine ⟨_, _, _, ?_, key r hr0, key g hg0, key b hb0⟩
  rw [estimate_illuminant, hacc]
  simp only [Option.map_some']
  rw [hnorm]

/-- C14 at the pixels `(0.8, 0.8, 0.8)` and `(0.2, 0.4, 0.6)` with threshold 40. -/
theorem greyWorld_single_pixel_to_grey_witness :
    accumulate realLibm 3 2 (([0.8, 0.8, 0.8, 0.2, 0.4, 0.6] : List ℝ).map fin)
        { thresh := 40, norm := 1, preview := true } =
        some { ill_est := { c0 := fin 0.2, c1 := fin 0.4, c2 := fin 0.6 }, count_pix := 1 } ∧
      ∃ e0 e1 e2 : ℝ,
        estimate_illuminant realLibm 3 2 (([0.8, 0.8, 0.8, 0.2, 0.4, 0.6] : List ℝ).map fin)
            { thresh := 40, norm := 1, preview := true } =
          some { c0 := fin e0, c1 := fin e1, c2 := fin e2 } ∧
        (fin 0.2 / fin e0 : FVal ℝ) = fin (Real.sqrt (0.2 ^ 2 + 0.4 ^ 2 + 0.6 ^ 2)) ∧
        (fin 0.4 / fin e1 : FVal ℝ) = fin (Real.sqrt (0.2 ^ 2 + 0.4 ^ 2 + 0.6 ^ 2)) ∧
        (fin 0.6 / fin e2 : FVal ℝ) = fin (Real.sqrt (0.2 ^ 2 + 0.4 ^ 2 + 0.6 ^ 2)) :=
  greyWorld_single_pixel_to_grey [0.8, 0.8, 0.8, 0.2, 0.4, 0.6] 3 2 40 true 1 0.2 0.4 0.6
    (le_refl 3) rfl (by decide)
    (by simp only [Eligible, List.getD_cons_zero, List.getD_cons_succ]; norm_num)
    (by
      intro p hp hne
      have hp0 : p = 0 := by omega
      subst hp0
      simp only [Eligible, List.getD_cons_zero, List.getD_cons_succ]
      norm_num)
    rfl rfl rfl (by norm_num) (by norm_num) (by norm_num)

/-- Claim C14, counterexample. On the pixels `(0.8, 0.8, 0.8)` and `(0.2, 0.4, 0.6)` with
threshold 50 (`th_val = 0.5`) and `par.norm == 1` neither pixel is eligible, the second
because 0.6 exceeds 0.5: `count_pix` is 0 and the raw estimate `(0, 0, 0)`, not 1 and
`(0.2, 0.4, 0.6)`. -/
theorem scenario_threshold_50_no_eligible_pixel :
    accumulate realLibm 3 2 (([0.8, 0.8, 0.8, 0.2, 0.4, 0.6] : List ℝ).map fin)
        { thresh := 50, norm := 1, preview := true } =
      some { ill_est := { c0 := fin 0, c1 := fin 0, c2 := fin 0 }, count_pix := 0 } := by
  refine (accumulate_no_eligible 3 2 _ { thresh := 50, norm := 1, preview := true }
    (by decide) (by decide) ?_).1
  intro p hp
  have hcases : p = 0 ∨ p = 1 := by omega
  rcases hcases with rfl | rfl
  · simp [CHECK_TH, th_val_eq]
    norm_num
  · simp [CHECK_TH, th_val_eq]
    norm_num

/-! ## Uniform grey images -/

theorem getD_replicate_lt {β : Type} (m i : Nat) (a d : β) (h : i < m) :
    (List.replicate m a).getD i d = a := by
  rw [List.getD_eq_getElem _ _ (by simpa using h)]
  simp

/-- A uniform grey linear image of at least one pixel, the grey value `g` positive and
eligible, for an order `p >= 1`: the illuminant has three equal components `e` with
`3 e^2 = 1`, and the applier turns every sample into `min 1 (g / e)`. -/
theorem uniform_grey_corrected (n : Nat) (g : ℝ) (thresh p : Int) (pv : Bool) (hn : 0 < n)
    (hg : 0 < g) (hel : g ≤ 1 - (thresh : ℝ) / 100) (hp1 : 1 ≤ p) (hp2 : p < 2 ^ 32) :
    ∃ e : ℝ, 0 < e ∧ 3 * e ^ 2 = 1 ∧
      estimate_illuminant realLibm 3 n ((List.replicate (3 * n) g).map fin)
          { thresh := thresh, norm := p, preview := pv } =
        some { c0 := fin e, c1 := fin e, c2 := fin e } ∧
      apply_illuminant 3 n ((List.replicate (3 * n) g).map fin)
          { c0 := fin e, c1 := fin e, c2 := fin e } =
        some ((List.replicate (3 * n) (min 1 (g / e))).map fin) := by
  have hget : ∀ i < 3 * n, (List.replicate (3 * n) g).getD i 0 = g :=
    fun i hi => getD_replicate_lt _ _ _ _ hi
  have hmem0 : (0 : Nat) ∈ (Finset.range n).filter
      (fun q => Eligible (List.replicate (3 * n) g) (3 * q) (1 - (thresh : ℝ) / 100)) := by
    simp only [Finset.mem_filter, Finset.mem_range, Eligible]
    refine ⟨hn, ?_, ?_, ?_⟩
    · rw [hget _ (by omega)]; exact hel
    · rw [hget _ (by omega)]; exact hel
    · rw [hget _ (by omega)]; exact hel
  have hcard : 0 < ((Finset.range n).filter
      (fun q => Eligible (List.replicate (3 * n) g) (3 * q) (1 - (thresh : ℝ) / 100))).card :=
    Finset.card_pos.mpr ⟨0, hmem0⟩
  have hSpos : 0 < ∑ _q ∈ (Finset.range n).filter
      (fun q => Eligible (List.replicate (3 * n) g) (3 * q) (1 - (thresh : ℝ) / 100)),
      g ^ p.toNat :=
    Finset.sum_pos (fun _ _ => pow_pos hg _) ⟨0, hmem0⟩
  have hest := illuminant_direction (List.replicate (3 * n) g) n thresh p pv (by simp)
    (fun x hx => by rw [List.eq_of_mem_replicate hx]; exact hg.le) hp1 hp2
    (fun _ => ∑ _q ∈ (Finset.range n).filter
      (fun q => Eligible (List.replicate (3 * n) g) (3 * q) (1 - (thresh : ℝ) / 100)),
      g ^ p.toNat)
    (by
      intro k hk
      apply Finset.sum_congr rfl
      intro q hq
      have hq' : q < n := by
        have := (Finset.mem_filter.mp hq).1
        simpa using this
      rw [hget _ (by omega)])
    hcard (fun h => hSpos.ne' h.1)
  generalize (∑ _q ∈ (Finset.range n).filter
      (fun q => Eligible (List.replicate (3 * n) g) (3 * q) (1 - (thresh : ℝ) / 100)),
      g ^ p.toNat) = S at hSpos hest
  have hR : 0 < S ^ (1 / (p : ℝ)) := Real.rpow_pos_of_pos hSpos _
  generalize S ^ (1 / (p : ℝ)) = R at hR hest
  have hden : 0 < Real.sqrt (R * R + R * R + R * R) := Real.sqrt_pos.mpr (by positivity)
  have hden2 : Real.sqrt (R * R + R * R + R * R) ^ 2 = R * R + R * R + R * R :=
    Real.sq_sqrt (by positivity)
  have he : 0 < R / Real.sqrt (R * R + R * R + R * R) := by positivity
  have he3 : 3 * (R / Real.sqrt (R * R + R * R + R * R)) ^ 2 = 1 := by
    rw [div_pow, hden2]
    field_simp
    ring
  refine ⟨R / Real.sqrt (R * R + R * R + R * R), he, he3, hest, ?_⟩
  generalize R / Real.sqrt (R * R + R * R + R * R) = e at he he3
  obtain ⟨M, ys, _, hys, hyslen, hub, hat, hval, _⟩ :=
    apply_illuminant_three (List.replicate (3 * n) g) (fun _ => e) n (by simp)
      (fun x hx => by rw [List.eq_of_mem_replicate hx]; exact hg.le) (fun _ _ => he)
  have hM : M = g / e := by
    obtain ⟨q, hq, k, hk, h⟩ := hat hn
    rw [← h, hget _ (by omega)]
  rw [hys]
  congr 2
  rw [List.eq_replicate_iff]
  refine ⟨hyslen, ?_⟩
  intro y hy
  obtain ⟨i, hi, rfl⟩ := List.mem_iff_getElem.mp hy
  have hdecomp : 3 * (i / 3) + i % 3 = i := Nat.div_add_mod i 3
  have := hval (i / 3) (by omega) (i % 3) (Nat.mod_lt _ (by decide))
  rw [hdecomp, List.getD_eq_getElem _ _ hi, hget _ (by omega), hM] at this
  rw [this]
  have hq : 0 < g / e := by positivity
  by_cases h1 : 1 < g / e
  · rw [if_pos h1, div_self hq.ne', min_eq_left h1.le]
  · rw [if_neg h1, min_eq_right (not_lt.mp h1)]

/-- The host call on a drawable whose bytes are all equal. -/
theorem get_rect_const (d : Drawable) (b : Byte) (hb : ∀ x y k, d.pixel x y k = b)
    (x y : Int) (w h : Nat) : get_rect d x y w h = List.replicate (w * h * d.bpp) b := by
  unfold get_rect
  simp only [hb]
  rw [List.eq_replicate_iff]
  constructor
  · simp
  · intro c hc
    simp only [List.mem_map] at hc
    obtain ⟨_, _, rfl⟩ := hc
    rfl

theorem mapM_replicate_some {β γ : Type} (f : β → Option γ) (a : β) (c : γ) (h : f a = some c)
    (m : Nat) : (List.replicate m a).mapM f = some (List.replicate m c) := by
  induction m with
  | zero => rfl
  | succ m ih =>
    rw [List.replicate_succ, List.mapM_cons, h, ih]
    rfl

/-- Bounds on the power `x ^ 2.4` from bounds on fifth and twelfth powers. -/
theorem rpow_decode_bounds (x lo hi : ℝ) (hx : 0 ≤ x) (hhi : 0 ≤ hi)
    (h1 : lo ^ 5 < x ^ 12) (h2 : x ^ 12 < hi ^ 5) :
    lo < x ^ (2.4 : ℝ) ∧ x ^ (2.4 : ℝ) < hi := by
  set r : ℝ := x ^ (2.4 : ℝ) with hr
  have hr0 : 0 ≤ r := Real.rpow_nonneg hx _
  have h5 : r ^ 5 = x ^ 12 := by
    rw [hr, ← Real.rpow_natCast, ← Real.rpow_mul hx]
    have : (2.4 : ℝ) * ((5 : ℕ) : ℝ) = ((12 : ℕ) : ℝ) := by norm_num
    rw [this, Real.rpow_natCast]
  constructor
  · by_contra h
    push_neg at h
    have : r ^ 5 ≤ lo ^ 5 := pow_le_pow_left₀ hr0 h 5
    rw [h5] at this
    linarith
  · by_contra h
    push_neg at h
    have : hi ^ 5 ≤ r ^ 5 := pow_le_pow_left₀ hhi h 5
    rw [h5] at this
    linarith

/-- The table entry of the byte 230: a linear value between 0.6 and 0.95. -/
theorem lookup_230 : ∃ G : ℝ, lookup realLibm 230 = fin G ∧ 0.6 < G ∧ G < 0.95 := by
  obtain ⟨hlo, hhi⟩ := rpow_decode_bounds ((((230 : ℕ) : ℝ) / 255 + 0.055) / 1.055) 0.6 0.95
    (by norm_num) (by norm_num) (by norm_num) (by norm_num)
  refine ⟨((((230 : ℕ) : ℝ) / 255 + 0.055) / 1.055) ^ (2.4 : ℝ), ?_, hlo, hhi⟩
  unfold lookup
  have h1 : ¬ ((230 : ℕ) : ℝ) / 255 ≤ 0.03928 := by norm_num
  have h2 : ¬ ((((230 : ℕ) : ℝ) / 255 + 0.055) / 1.055 < 0) := by norm_num
  simp only [le_fin_fin, h1, decide_False, fin_add_fin, Bool.false_eq_true, if_false]
  rw [fin_div_fin _ _ (by norm_num)]
  simp only [fpow, h2, if_false, realLibm]

/-- Claim C13, counterexample. On a drawable of one RGB pixel with the bytes
`(230, 230, 230)`, threshold 5, norm 1 and no preview, `shades_of_grey` writes
`(247, 247, 247)`: every output byte is 17 above the input byte. -/
theorem uniform_grey_230_becomes_247 :
    shades_of_grey realLibm
        { bpp := 3, x1 := 0, y1 := 0, x2 := 1, y2 := 1, pixel := fun _ _ _ => 230 }
        { thresh := 5, norm := 1, preview := true } none =
      some { x := 0, y := 0, w := 1, h := 1, imageout := [247, 247, 247] } := by
  obtain ⟨G, hG, hGlo, hGhi⟩ := lookup_230
  obtain ⟨e, he, he3, hest, happ⟩ := uniform_grey_corrected 1 G 5 1 true (by decide)
    (by linarith) (by norm_num; linarith) (by decide) (by decide)
  have hlt : e < 0.58 := by
    by_contra h
    push_neg at h
    have : (0.58 : ℝ) ^ 2 ≤ e ^ 2 := pow_le_pow_left₀ (by norm_num) h 2
    norm_num at this
    linarith
  have hone : min 1 (G / e) = 1 := by
    apply min_eq_left
    rw [le_div_iff₀ he]
    linarith
  rw [hone] at happ
  have hdec : sRGB2linearLU realLibm (List.replicate 3 (230 : Byte)) 3 =
      some ((List.replicate (3 * 1) G).map fin) := by
    unfold sRGB2linearLU
    rw [if_pos (by simp)]
    congr 1
    rw [List.take_replicate, List.map_replicate, List.map_replicate]
    have : ((230 : Byte) : Nat) = 230 := rfl
    simp only [Nat.min_self, this, hG, Nat.mul_one]
  have hrect : get_rect
      { bpp := 3, x1 := 0, y1 := 0, x2 := 1, y2 := 1, pixel := fun _ _ _ => (230 : Byte) }
      0 0 1 1 = List.replicate 3 230 :=
    get_rect_const _ 230 (fun _ _ _ => rfl) 0 0 1 1
  have hest' : shades_of_grey_estimate realLibm
      { bpp := 3, x1 := 0, y1 := 0, x2 := 1, y2 := 1, pixel := fun _ _ _ => (230 : Byte) }
      { thresh := 5, norm := 1, preview := true } none =
      some { channels := 3, width := 1, height := 1, npixels := 1,
             imtmp := (List.replicate (3 * 1) G).map fin,
             app_ill := { c0 := fin e, c1 := fin e, c2 := fin e } } := by
    unfold shades_of_grey_estimate
    simp only [show ((1 : Int) - 0).toNat = 1 from rfl, Nat.mul_one, Nat.one_mul]
    rw [hrect, hdec]
    simp only [Option.some_bind, Nat.mul_one] at hest ⊢
    rw [hest]
    rfl
  have henc : linear2sRGB realLibm ((List.replicate (3 * 1) (1 : ℝ)).map fin) 3 =
      some (List.replicate 3 (linear2sRGB1 realLibm (fin 1))) := by
    unfold linear2sRGB
    rw [if_pos (by simp)]
    rfl
  have hq : float2im (List.replicate 3 (linear2sRGB1 realLibm (fin 1))) 3 =
      some [247, 247, 247] := by
    unfold float2im
    rw [if_pos (by simp), List.take_replicate,
      mapM_replicate_some float2im1 _ 247 encode_one_is_247]
    rfl
  unfold shades_of_grey
  rw [hest']
  simp only [Option.some_bind, Nat.mul_one, Nat.one_mul]
  rw [happ]
  simp only [Option.some_bind]
  rw [henc]
  simp only [Option.some_bind]
  rw [hq]
  rfl

/-- Claim C13, as the code has it. A uniform grey three-channel linear image of at least
one pixel, the grey value `g` positive, at most 1 and eligible, for every order `p >= 1`
with `g^p` at least `2^-126`: the normalised illuminant has three equal components `e`
(with `0 < e` and `3 e^2 = 1`), and the applier turns every sample into `min 1 (g / e)`,
which is at least `g`.  The bound `2^-126 <= g^p` keeps the `gfloat` products of `powN` in
the normal range (no underflow to 0); the exact arithmetic of the embedding does not need
it. -/
theorem uniform_grey_equal_illuminant (n : Nat) (g : ℝ) (thresh p : Int) (pv : Bool)
    (hn : 0 < n) (hg : 0 < g) (hg1 : g ≤ 1) (hel : g ≤ 1 - (thresh : ℝ) / 100) (hp1 : 1 ≤ p)
    (hp2 : p < 2 ^ 32) (_hrange : 1 / 2 ^ 126 ≤ g ^ p.toNat) :
    ∃ e : ℝ, 0 < e ∧ 3 * e ^ 2 = 1 ∧
      estimate_illuminant realLibm 3 n ((List.replicate (3 * n) g).map fin)
          { thresh := thresh, norm := p, preview := pv } =
        some { c0 := fin e, c1 := fin e, c2 := fin e } ∧
      apply_illuminant 3 n ((List.replicate (3 * n) g).map fin)
          { c0 := fin e, c1 := fin e, c2 := fin e } =
        some ((List.replicate (3 * n) (min 1 (g / e))).map fin) ∧
      g ≤ min 1 (g / e) := by
  obtain ⟨e, he, he3, hest, happ⟩ := uniform_grey_corrected n g thresh p pv hn hg hel hp1 hp2
  refine ⟨e, he, he3, hest, happ, le_min hg1 ?_⟩
  have he1 : e ≤ 1 := by nlinarith
  rw [le_div_iff₀ he]
  nlinarith

/-- C13 at four pixels of grey value 0.25 with threshold 5 and order 6. -/
theorem uniform_grey_equal_illuminant_witness :
    ∃ e : ℝ, 0 < e ∧ 3 * e ^ 2 = 1 ∧
      estimate_illuminant realLibm 3 4 ((List.replicate (3 * 4) (0.25 : ℝ)).map fin)
          { thresh := 5, norm := 6, preview := true } =
        some { c0 := fin e, c1 := fin e, c2 := fin e } ∧
      apply_illuminant 3 4 ((List.replicate (3 * 4) (0.25 : ℝ)).map fin)
          { c0 := fin e, c1 := fin e, c2 := fin e } =
        some ((List.replicate (3 * 4) (min 1 (0.25 / e))).map fin) ∧
      (0.25 : ℝ) ≤ min 1 (0.25 / e) :=
  uniform_grey_equal_illuminant 4 0.25 5 6 true (by decide) (by norm_num) (by norm_num)
    (by norm_num) (by decide) (by decide) (by norm_num [show (6 : Int).toNat = 6 from rfl])

/-! ## The entry point and the threshold -/

/-- Claim C15, as the code has it. A non-interactive call of `run` with four parameters
stores the threshold it is given, whatever its value, calls `shades_of_grey` with it and
leaves `GIMP_PDB_SUCCESS` in the returned status: the threshold is not validated. -/
theorem run_noninteractive_does_not_validate {α : Type} [LinearOrderedField α] [FloorRing α]
    (L : Libm α) (par : Shades_param) (stored : Option Shades_param)
    (dialog : Shades_param → Shades_param × Bool) (thresh : Int) (d : Drawable) :
    run L par stored dialog RunMode.noninteractive 4 thresh d =
      (shades_of_grey L d { par with thresh := thresh } none).map fun w =>
        { d_status := PDBStatus.success, par := { par with thresh := thresh },
          written := some w } := by
  unfold run
  simp

/-- The applier with a NaN illuminant on one finite three-channel pixel: every sample
becomes NaN and nothing is rescaled. -/
theorem apply_nan_one_pixel (a b c : ℝ) :
    apply_illuminant 3 1 [fin a, fin b, fin c] { c0 := nan, c1 := nan, c2 := nan } =
      some [nan, nan, nan] := by
  have hdiv : ∀ x : ℝ, (fin x / nan : FVal ℝ) = nan := fun _ => rfl
  simp [apply_illuminant, applyGain, pixelIters, forLoop, gainPixel, Vec3.get?, wr, hdiv,
    FVal.gt, FVal.lt]

/-- Claim C15, counterexample. A non-interactive call of `run` with four parameters and
the threshold 150 on a drawable of one white RGB pixel returns `GIMP_PDB_SUCCESS`, keeps
150 in `par.thresh`, and writes the pixel back as `(0, 0, 0)`. -/
theorem run_threshold_150_writes_black :
    run realLibm { thresh := 5, norm := 5, preview := true } none (fun q => (q, true))
        RunMode.noninteractive 4 150
        { bpp := 3, x1 := 0, y1 := 0, x2 := 1, y2 := 1, pixel := fun _ _ _ => 255 } =
      some { d_status := PDBStatus.success,
             par := { thresh := 150, norm := 5, preview := true },
             written := some { x := 0, y := 0, w := 1, h := 1, imageout := [0, 0, 0] } } := by
  have hrect : get_rect
      { bpp := 3, x1 := 0, y1 := 0, x2 := 1, y2 := 1, pixel := fun _ _ _ => (255 : Byte) }
      0 0 1 1 = List.replicate 3 255 :=
    get_rect_const _ 255 (fun _ _ _ => rfl) 0 0 1 1
  have hdec : sRGB2linearLU realLibm (List.replicate 3 (255 : Byte)) 3 =
      some [fin 1, fin 1, fin 1] := by
    unfold sRGB2linearLU
    rw [if_pos (by simp)]
    have : ((255 : Byte) : Nat) = 255 := rfl
    simp [List.replicate, this, lookup_255]
  have hnone : ∀ p < 1, CHECK_TH [fin (1 : ℝ), fin 1, fin 1] (p * 3) (th_val 150) =
      some false := by
    intro p hp
    have hp0 : p = 0 := by omega
    subst hp0
    simp [CHECK_TH, th_val_eq]
  have hill := (accumulate_no_eligible 3 1 [fin 1, fin 1, fin 1]
    { thresh := 150, norm := 5, preview := true } (by decide) (by decide) hnone).2
  have hest : shades_of_grey_estimate realLibm
      { bpp := 3, x1 := 0, y1 := 0, x2 := 1, y2 := 1, pixel := fun _ _ _ => (255 : Byte) }
      { thresh := 150, norm := 5, preview := true } none =
      some { channels := 3, width := 1, height := 1, npixels := 1,
             imtmp := [fin 1, fin 1, fin 1],
             app_ill := { c0 := nan, c1 := nan, c2 := nan } } := by
    unfold shades_of_grey_estimate
    simp only [show ((1 : Int) - 0).toNat = 1 from rfl, Nat.mul_one, Nat.one_mul]
    rw [hrect, hdec]
    simp only [Option.some_bind]
    rw [hill]
    rfl
  have henc : linear2sRGB realLibm [nan, nan, nan] 3 = some [fin 0, fin 0, fin 0] := by
    unfold linear2sRGB
    rw [if_pos (by simp)]
    simp [linear2sRGB1_zero_or_nan realLibm nan (Or.inr rfl)]
  have hq : float2im [fin (0 : ℝ), fin 0, fin 0] 3 = some [0, 0, 0] := by
    unfold float2im
    rw [if_pos (by simp)]
    exact mapM_replicate_some float2im1 (fin (0 : ℝ)) 0 float2im1_zero 3
  have hsog : shades_of_grey realLibm
      { bpp := 3, x1 := 0, y1 := 0, x2 := 1, y2 := 1, pixel := fun _ _ _ => (255 : Byte) }
      { thresh := 150, norm := 5, preview := true } none =
      some { x := 0, y := 0, w := 1, h := 1, imageout := [0, 0, 0] } := by
    unfold shades_of_grey
    rw [hest]
    simp only [Option.some_bind, Nat.mul_one, Nat.one_mul]
    rw [apply_nan_one_pixel]
    simp only [Option.some_bind]
    rw [henc]
    simp only [Option.some_bind]
    rw [hq]
    rfl
  unfold run
  simp only [ne_eq, not_true_eq_false, if_false, if_true]
  rw [hsog]
  rfl

end ShadesOfGrey
